import Mathlib

/-!
# pdfgrep: work queue (`queue.cc`) and pattern matchers (`regengine.cc`)

A shallow embedding of the two leaf components and machine-checked proofs of
their documented properties.

Memory model for the queue.  A pointer to a `Queue_node` is an `Option Nat`:
`none` is `NULL`, `some a` is the address `a`.  The heap maps an address to the
node stored there while the node is live (between `malloc` and `free`).
Dereferencing a pointer that is `NULL` or not live is undefined behaviour in C;
the embedded functions then return `none`.  The outcome of each `malloc` call is
an explicit argument (`none`: allocation failed, `some a`: the block at `a`).
-/

namespace Pdfgrep

/-! ## queue.h -/

/-- The `struct Queue_node` of queue.h: one path and a forward link. -/
structure Queue_node where
  path : String
  next : Option Nat
deriving DecidableEq, Repr

/-- Live `Queue_node` objects by address. -/
abbrev Heap := Nat → Option Queue_node

/-- The `struct Queue` of queue.h (the mutex carries no data in a sequential run). -/
structure Queue where
  front : Option Nat
  rear : Option Nat
deriving DecidableEq, Repr

/-- The memory a queue operation works on: the node heap and the queue header. -/
structure State where
  heap : Heap
  queue : Queue

/-- Heap write `*a = node`. -/
def Heap.store (h : Heap) (a : Nat) (node : Queue_node) : Heap :=
  fun b => if b = a then some node else h b

/-- Heap release `free(a)`. -/
def Heap.release (h : Heap) (a : Nat) : Heap :=
  fun b => if b = a then none else h b

/-! ## queue.cc -/

/-- `Queue_create`: `NULL` when `malloc` fails or `pthread_mutex_init` returns
non-zero, otherwise a header with both pointers `NULL`. -/
def Queue_create (malloc_ok : Bool) (mutex_init_ret : Int) : Option Queue :=
  if !malloc_ok then none
  else
    let queue : Queue := { front := none, rear := none }
    if mutex_init_ret ≠ 0 then none
    else some queue

/-- `Queue_node_create`: returns the new node pointer (or `NULL`) and the heap. -/
def Queue_node_create (malloc : Option Nat) (heap : Heap) (path : String) :
    Option Nat × Heap :=
  match malloc with
  | none => (none, heap)
  | some new_node => (some new_node, heap.store new_node { path := path, next := none })

/-- `Queue_node_free`. -/
def Queue_node_free (heap : Heap) (node : Nat) : Heap :=
  heap.release node

/-- `enqueue`: the return value and the memory afterwards; `none` when the call
dereferences a pointer that is `NULL` or dangling (`queue->rear->next`).  A
failing `pthread_mutex_lock` only prints a message and changes no memory. -/
def enqueue (malloc : Option Nat) (s : State) (path : String) : Option (Int × State) :=
  match Queue_node_create malloc s.heap path with
  | (none, _) => some (0, s)
  | (some new_node, heap) =>
    match s.queue.front with
    | none =>
      some (1, { heap := heap, queue := { front := some new_node, rear := some new_node } })
    | some front =>
      match s.queue.rear with
      | none => none
      | some rear =>
        match heap rear with
        | none => none
        | some node =>
          some (1, { heap := heap.store rear { node with next := some new_node },
                     queue := { front := some front, rear := some new_node } })

/-- `dequeue`: the return value, the content of `*path` afterwards and the memory
afterwards; `none` when the call dereferences a dangling `front`. -/
def dequeue (s : State) (path : String) : Option (Int × String × State) :=
  match s.queue.front with
  | none => some (0, path, s)
  | some tmp =>
    match s.heap tmp with
    | none => none
    | some node =>
      some (1, node.path,
        { heap := Queue_node_free s.heap tmp, queue := { s.queue with front := node.next } })

/-- One call made by a client of the queue; an `enqueue` carries the outcome of
its `malloc`. -/
inductive Call where
  | enqueue (malloc : Option Nat) (path : String)
  | dequeue
deriving DecidableEq, Repr

/-- Sequential client: performs the calls one after another, all dequeues writing
to the same `path` variable.  For every call the result lists the return value
and the content of the `path` variable after the call. -/
def run : State → String → List Call → Option (List (Int × String) × State × String)
  | s, path, [] => some ([], s, path)
  | s, path, Call.enqueue malloc p :: rest =>
    match enqueue malloc s p with
    | none => none
    | some (r, s1) =>
      match run s1 path rest with
      | none => none
      | some (rs, s2, path2) => some ((r, path) :: rs, s2, path2)
  | s, path, Call.dequeue :: rest =>
    match dequeue s path with
    | none => none
    | some (r, path1, s1) =>
      match run s1 path1 rest with
      | none => none
      | some (rs, s2, path2) => some ((r, path1) :: rs, s2, path2)

/-- The allocator contract along a run: every successful `malloc` returns an
address that is not live at the time of the call. -/
def AllocFresh : State → String → List Call → Prop
  | _, _, [] => True
  | s, path, Call.enqueue malloc p :: rest =>
    (∀ a, malloc = some a → s.heap a = none) ∧
      (∀ r s1, enqueue malloc s p = some (r, s1) → AllocFresh s1 path rest)
  | s, path, Call.dequeue :: rest =>
    ∀ r path1 s1, dequeue s path = some (r, path1, s1) → AllocFresh s1 path1 rest

/-! ## Representation invariant of the linked queue -/

/-- The nodes reachable from pointer `p` are exactly `l` (address and path of
each node, in link order) and the last link is `NULL`. -/
def Chain (h : Heap) : Option Nat → List (Nat × String) → Prop
  | p, [] => p = none
  | p, (a, x) :: rest => p = some a ∧ ∃ nx, h a = some { path := x, next := nx } ∧ Chain h nx rest

/-- State `s` holds the queue whose nodes are `l`: `front` heads the chain, the
addresses are pairwise distinct and, when the chain is non-empty, `rear` is its
last node. -/
def Represents (s : State) (l : List (Nat × String)) : Prop :=
  Chain s.heap s.queue.front l ∧ (l.map Prod.fst).Nodup ∧
    ∀ a x, l.getLast? = some (a, x) → s.queue.rear = some a

/-- The abstract list queue of the spec, run on the same calls: an `enqueue`
whose allocation succeeds appends at the tail and returns 1, one whose allocation
fails returns 0; a `dequeue` returns 0 on the empty list and otherwise removes
the head, delivers it and returns 1.  The result lists the same observations as
`run`, then the final list and the final content of the `path` variable. -/
def abs_run : List String → String → List Call → List (Int × String) × List String × String
  | l, path, [] => ([], l, path)
  | l, path, Call.enqueue none _ :: rest =>
    ((0, path) :: (abs_run l path rest).1, (abs_run l path rest).2)
  | l, path, Call.enqueue (some _) p :: rest =>
    ((1, path) :: (abs_run (l ++ [p]) path rest).1, (abs_run (l ++ [p]) path rest).2)
  | [], path, Call.dequeue :: rest =>
    ((0, path) :: (abs_run [] path rest).1, (abs_run [] path rest).2)
  | x :: l, _, Call.dequeue :: rest =>
    ((1, x) :: (abs_run l x rest).1, (abs_run l x rest).2)

/-- The paths handed to the `enqueue` calls that returned 1, in call order. -/
def enqueued : List Call → List (Int × String) → List String
  | Call.enqueue _ p :: calls, (r, _) :: results =>
    if r = 1 then p :: enqueued calls results else enqueued calls results
  | Call.dequeue :: calls, _ :: results => enqueued calls results
  | _, _ => []

/-- The paths delivered by the `dequeue` calls that returned 1, in call order. -/
def dequeued : List Call → List (Int × String) → List String
  | Call.enqueue _ _ :: calls, _ :: results => dequeued calls results
  | Call.dequeue :: calls, (r, path) :: results =>
    if r = 1 then path :: dequeued calls results else dequeued calls results
  | _, _ => []

/-! ## regengine.h / regengine.cc -/

/-- Modelled from the spec: `enum class CaseSensitivity` is declared in pdfgrep.h,
which is not part of the sources at hand; the spec lists the three policies. -/
inductive CaseSensitivity where
  | SENSITIVE
  | INSENSITIVE
  | SMART
deriving DecidableEq, Repr

/-- Modelled from the spec: `struct match` is declared in pdfgrep.h, which is not
part of the sources at hand; the matchers write its fields `start` and `end`,
the half-open byte range of one occurrence. -/
structure Match where
  start : Nat
  end_ : Nat
deriving DecidableEq, Repr

/-- The bytes of an ASCII string literal (a `std::string` is a sequence of bytes,
here numbers below 256). -/
def ascii (s : String) : List Nat :=
  s.toList.map Char.toNat

/-- `isupper` of ctype.h on one byte (C locale): the letters `A` to `Z`. -/
def isupper (c : Nat) : Bool :=
  decide (65 ≤ c) && decide (c ≤ 90)

/-- `tolower` of ctype.h on one byte (C locale). -/
def tolower (c : Nat) : Nat :=
  if isupper c then c + 32 else c

/-- `std::string::c_str()`: the bytes followed by the terminating zero byte.
This is also the memory behind `&str[0]`. -/
def c_str (s : List Nat) : List Nat :=
  s ++ [0]

/-- The byte is not the string terminator. -/
def not_nul (c : Nat) : Bool :=
  c != 0

/-- The C string stored at the start of a memory region: the bytes before the
first zero byte. -/
def cstring (mem : List Nat) : List Nat :=
  mem.takeWhile not_nul

/-- Whether `needle` is a prefix of `hay` when bytes are compared with `eq`. -/
def starts_with (eq : Nat → Nat → Bool) : List Nat → List Nat → Bool
  | _, [] => true
  | [], _ :: _ => false
  | h :: hay, n :: needle => eq h n && starts_with eq hay needle

/-- Index of the first position of `hay` at which `needle` starts. -/
def find_first (eq : Nat → Nat → Bool) (needle : List Nat) : List Nat → Option Nat
  | [] => if starts_with eq [] needle then some 0 else none
  | c :: hay =>
    if starts_with eq (c :: hay) needle then some 0
    else (find_first eq needle hay).map (fun i => i + 1)

/-- `strstr` of string.h.  Both arguments are the memory their pointers refer
to; the function reads each up to its first zero byte.  The result is the
distance of the returned pointer from `haystack`, `none` for `NULL`. -/
def strstr (haystack needle : List Nat) : Option Nat :=
  find_first (fun a b => a == b) (cstring needle) (cstring haystack)

/-- `strcasestr` of string.h (C locale): like `strstr`, ignoring ASCII case. -/
def strcasestr (haystack needle : List Nat) : Option Nat :=
  find_first (fun a b => tolower a == tolower b) (cstring needle) (cstring haystack)

/-- The abstract class `Regengine`: virtual dispatch is a record holding the
`exec` method.  `exec str offset m` returns the `bool` result and the content of
the reference argument `m` after the call. -/
structure Regengine where
  exec : List Nat → Nat → Match → Bool × Match

/-- Class `PatternList`: the member matchers in insertion order. -/
structure PatternList where
  patterns : List Regengine

/-- The loop of `PatternList::exec` over the remaining members; `m` is the
caller's record and `m_copy` the local copy handed to the members. -/
def PatternList.exec_loop (str : List Nat) (offset : Nat) (m : Match) :
    List Regengine → Match → Bool × Match
  | [], _ => (false, m)
  | r :: rest, m_copy =>
    match r.exec str offset m_copy with
    | (true, m_copy1) => (true, { m with start := m_copy1.start, end_ := m_copy1.end_ })
    | (false, m_copy1) => PatternList.exec_loop str offset m rest m_copy1

/-- `PatternList::exec`. -/
def PatternList.exec (self : PatternList) (str : List Nat) (offset : Nat) (m : Match) :
    Bool × Match :=
  let m_copy := m
  PatternList.exec_loop str offset m self.patterns m_copy

/-- `PatternList::add_pattern`: `push_back`. -/
def PatternList.add_pattern (self : PatternList) (pattern : Regengine) : PatternList :=
  { patterns := self.patterns ++ [pattern] }

/-- A `PatternList` used through the base class. -/
def PatternList.toRegengine (self : PatternList) : Regengine :=
  { exec := self.exec }

/-- `REG_NOTBOL` of regex.h (glibc value). -/
def REG_NOTBOL : Nat := 1

/-- Class `PosixRegex`: the compiled `regex_t`. -/
structure PosixRegex (regex_t : Type) where
  regex : regex_t

/-- `PosixRegex::exec`.  The library function `regexec` is a parameter: it gets
the compiled regex, the memory behind the string pointer and the flags, and
returns its `int` result with `match[0]` (`rm_so`, `rm_eo`; non-negative byte
offsets whenever the result is 0). -/
def PosixRegex.exec {regex_t : Type} (regexec : regex_t → List Nat → Nat → Int × Nat × Nat)
    (self : PosixRegex regex_t) (str : List Nat) (offset : Nat) (m : Match) : Bool × Match :=
  let flags := if offset = 0 then 0 else REG_NOTBOL
  match regexec self.regex ((c_str str).drop offset) flags with
  | (ret, rm_so, rm_eo) =>
    if ret ≠ 0 then (false, m)
    else (true, { m with start := offset + rm_so, end_ := offset + rm_eo })

/-- A `PosixRegex` used through the base class. -/
def PosixRegex.toRegengine {regex_t : Type}
    (regexec : regex_t → List Nat → Nat → Int × Nat × Nat) (self : PosixRegex regex_t) :
    Regengine :=
  { exec := self.exec regexec }

/-- Class `FixedString`: the literals and the case policy. -/
structure FixedString where
  patterns : List (List Nat)
  case_folding : CaseSensitivity

/-- The byte is not the line delimiter `\n`. -/
def not_newline (c : Nat) : Bool :=
  c != 10

/-- `std::getline` on the rest of an input stream: `none` when nothing is left
(no byte is extracted and the stream fails), otherwise the line up to the next
`\n` and the input after that delimiter. -/
def getline (input : List Nat) : Option (List Nat × List Nat) :=
  match input with
  | [] => none
  | _ :: _ => some (input.takeWhile not_newline, (input.dropWhile not_newline).drop 1)

/-- The loop `while (getline(str, line)) patterns.push_back(line)`, at most `fuel`
rounds. -/
def getline_loop : Nat → List Nat → List (List Nat) → List (List Nat)
  | 0, _, patterns => patterns
  | fuel + 1, input, patterns =>
    match getline input with
    | none => patterns
    | some (line, rest) => getline_loop fuel rest (patterns ++ [line])

/-- The constructor `FixedString::FixedString` (the type already has that name
here).  Every round of the loop consumes at least one byte, so
`pattern.length + 1` rounds are enough (`getline_loop_fuel`). -/
def FixedString.ctor (pattern : List Nat) (case_folding : CaseSensitivity) :
    FixedString :=
  if pattern.isEmpty then { patterns := [pattern], case_folding := case_folding }
  else { patterns := getline_loop (pattern.length + 1) pattern [], case_folding := case_folding }

/-- `FixedString::has_uppercase_literals`: `std::any_of` with `isupper`. -/
def FixedString.has_uppercase_literals (pattern : List Nat) : Bool :=
  pattern.any isupper

/-- The condition `case_insensitive` computed for one literal in
`FixedString::exec`. -/
def FixedString.case_insensitive (self : FixedString) (pattern : List Nat) : Bool :=
  self.case_folding == CaseSensitivity.INSENSITIVE
    || (self.case_folding == CaseSensitivity.SMART
        && !FixedString.has_uppercase_literals pattern)

/-- The search for one literal in `FixedString::exec`: the position of `result`
relative to `str_begin`, `none` for `nullptr`. -/
def FixedString.search (self : FixedString) (str_begin : List Nat) (pattern : List Nat) :
    Option Nat :=
  if self.case_insensitive pattern then strcasestr str_begin (c_str pattern)
  else strstr str_begin (c_str pattern)

/-- One round of the loop of `FixedString::exec` on the pair
(`min_result`, `min_pattern`). -/
def FixedString.exec_step (self : FixedString) (str_begin : List Nat)
    (acc : Option Nat × List Nat) (pattern : List Nat) : Option Nat × List Nat :=
  match self.search str_begin pattern with
  | none => acc
  | some result =>
    match acc.1 with
    | none => (some result, pattern)
    | some min_result => if result < min_result then (some result, pattern) else acc

/-- The loop of `FixedString::exec` over all literals: the final pair
(`min_result`, `min_pattern`).  `min_pattern` is uninitialised until the first
hit; the placeholder `[]` is never read. -/
def FixedString.exec_loop (self : FixedString) (str_begin : List Nat) :
    Option Nat × List Nat :=
  self.patterns.foldl (self.exec_step str_begin) (none, [])

/-- `FixedString::exec`.  `&str[offset]` is defined for `offset ≤ str.size()`
and then points into the zero-terminated buffer of `str`. -/
def FixedString.exec (self : FixedString) (str : List Nat) (offset : Nat) (m : Match) :
    Bool × Match :=
  let str_begin := (c_str str).drop offset
  match self.exec_loop str_begin with
  | (some min_result, min_pattern) =>
    (true, { m with start := offset + min_result,
                    end_ := offset + min_result + min_pattern.length })
  | (none, _) => (false, m)

/-- A `FixedString` used through the base class. -/
def FixedString.toRegengine (self : FixedString) : Regengine :=
  { exec := self.exec }

/-! ## Vocabulary of the matcher properties -/

/-- The byte as it is compared: lower-cased when the comparison ignores ASCII
case. -/
def fold_case (ci : Bool) (c : Nat) : Nat :=
  if ci then tolower c else c

/-- Literal `lit` occurs in `text` at position `p`: the `lit.length` bytes of
`text` from `p` on exist and equal the literal, byte for byte when `ci` is false
and up to ASCII case when `ci` is true. -/
def occurs_at (ci : Bool) (lit text : List Nat) (p : Nat) : Prop :=
  p + lit.length ≤ text.length ∧
    ((text.drop p).take lit.length).map (fold_case ci) = lit.map (fold_case ci)

instance (ci : Bool) (lit text : List Nat) (p : Nat) : Decidable (occurs_at ci lit text p) :=
  inferInstanceAs (Decidable (_ ∧ _))

/-- The end of the C string that starts at `offset` in the buffer of `str`: the
position of the first zero byte at or after `offset`, or the length of `str`
when there is none. -/
def c_window_end (str : List Nat) (offset : Nat) : Nat :=
  offset + ((str.drop offset).takeWhile not_nul).length

/-- Loop invariant of `FixedString::exec` after the literals `seen`: without a hit
so far no literal of `seen` was found; otherwise `min_pattern` is a literal of
`seen` found at `min_result`, every literal before it is found later or not at
all, and every literal after it is found no earlier or not at all. -/
def FixedString.exec_inv (self : FixedString) (str_begin : List Nat)
    (seen : List (List Nat)) (acc : Option Nat × List Nat) : Prop :=
  match acc.1 with
  | none => ∀ q ∈ seen, self.search str_begin q = none
  | some r =>
    ∃ pre post, seen = pre ++ acc.2 :: post ∧ self.search str_begin acc.2 = some r ∧
      (∀ q ∈ pre, ∀ r', self.search str_begin q = some r' → r < r') ∧
      (∀ q ∈ post, ∀ r', self.search str_begin q = some r' → r ≤ r')

/-- Reference model of `regexec` (regex.h) for a regex compiled from `^` followed
by a literal without metacharacters, without `REG_NEWLINE`; `regex` holds the
literal.  The anchor matches only at the start of the string and not at all when
`REG_NOTBOL` is set; the result is 0 with `match[0]`, or `REG_NOMATCH` (1). -/
def regexec_anchored (regex : List Nat) (string : List Nat) (eflags : Nat) : Int × Nat × Nat :=
  if eflags % 2 = REG_NOTBOL then (1, 0, 0)
  else if starts_with (fun a b => a == b) (cstring string) regex then (0, 0, regex.length)
  else (1, 0, 0)

/-- The matchers whose reported range is examined: a `FixedString` whose literals
contain no zero byte, a `PosixRegex` over an engine whose successful result obeys
`rm_so ≤ rm_eo ≤ length(text) - offset`, and a `PatternList` of such matchers. -/
inductive Variant {regex_t : Type} (regexec : regex_t → List Nat → Nat → Int × Nat × Nat) :
    Regengine → Prop
  | fixed (fs : FixedString) (hnul : ∀ lit ∈ fs.patterns, 0 ∉ lit) :
      Variant regexec fs.toRegengine
  | posix (re : PosixRegex regex_t)
      (hengine : ∀ (str : List Nat) (offset flags so eo : Nat), offset ≤ str.length →
        regexec re.regex ((c_str str).drop offset) flags = (0, so, eo) →
        so ≤ eo ∧ eo ≤ str.length - offset) :
      Variant regexec (re.toRegengine regexec)
  | list (pl : PatternList) (hall : ∀ r ∈ pl.patterns, Variant regexec r) :
      Variant regexec pl.toRegengine

/-! ## regengine.cc: smart-case scanner and the `PosixRegex` constructor -/

/-- The loop of `regex_has_uppercase_literals` on the rest of the pattern, with
the current value of the local variable `escaped`. -/
def regex_has_uppercase_literals_loop : Bool → List Nat → Bool
  | _, [] => false
  | true, _ :: rest => regex_has_uppercase_literals_loop false rest
  | false, c :: rest =>
    if isupper c then true
    else if c = 92 then regex_has_uppercase_literals_loop true rest
    else regex_has_uppercase_literals_loop false rest

/-- The static function `regex_has_uppercase_literals` (92 is the backslash). -/
def regex_has_uppercase_literals (pattern : List Nat) : Bool :=
  regex_has_uppercase_literals_loop false pattern

/-- `PosixRegex::has_uppercase_literals`. -/
def PosixRegex.has_uppercase_literals (pattern : List Nat) : Bool :=
  regex_has_uppercase_literals pattern

/-- Classification of the positions of a pattern, read left to right, when the
position 0 has the state `e`: a position is escaped when the position before it
is an unescaped backslash. -/
def escaped_from (e : Bool) (pattern : List Nat) : Nat → Bool
  | 0 => e
  | i + 1 => !escaped_from e pattern i && pattern.getD i 0 == 92

/-- Whether position `i` of the pattern is escaped (position 0 never is). -/
def escaped_at (pattern : List Nat) (i : Nat) : Bool :=
  escaped_from false pattern i

/-- The pattern text split at every `\n` (byte 10): the pieces before, between
and after the newlines, in order. -/
def split_newline : List Nat → List (List Nat)
  | [] => [[]]
  | c :: rest =>
    if c = 10 then [] :: split_newline rest
    else
      match split_newline rest with
      | [] => [[c]]
      | piece :: pieces => (c :: piece) :: pieces

/-- The lines of an input as a reader sees them: like `split_newline`, but a
final `\n` ends the last line instead of opening another one, and the empty
input has no line. -/
def lines_of : List Nat → List (List Nat)
  | [] => []
  | c :: rest =>
    if c = 10 then [] :: lines_of rest
    else
      match lines_of rest with
      | [] => [[c]]
      | line :: lines => (c :: line) :: lines

/-- The pattern text without its final `\n`, if it ends in one. -/
def strip_final_newline (pattern : List Nat) : List Nat :=
  if pattern.getLast? = some 10 then pattern.dropLast else pattern

/-- `REG_EXTENDED` of regex.h (glibc value). -/
def REG_EXTENDED : Nat := 1

/-- `REG_ICASE` of regex.h (glibc value). -/
def REG_ICASE : Nat := 2

/-- The condition `case_insensitive` computed once in the constructor of
`PosixRegex`, on the whole pattern. -/
def PosixRegex.case_insensitive (pattern : List Nat) (case_folding : CaseSensitivity) : Bool :=
  case_folding == CaseSensitivity.INSENSITIVE
    || (case_folding == CaseSensitivity.SMART
        && !PosixRegex.has_uppercase_literals pattern)

/-- The value `regex_flags` handed to `regcomp`. -/
def PosixRegex.regex_flags (pattern : List Nat) (case_folding : CaseSensitivity) : Nat :=
  REG_EXTENDED ||| (if PosixRegex.case_insensitive pattern case_folding then REG_ICASE else 0)

/-- The constructor `PosixRegex::PosixRegex`.  The library function `regcomp` is
a parameter: it gets the memory behind the pattern pointer and the flags and
returns its `int` result with the compiled regex.  `none` stands for the error
path, which prints the message and calls `exit`. -/
def PosixRegex.ctor {regex_t : Type} (regcomp : List Nat → Nat → Int × regex_t)
    (pattern : List Nat) (case_folding : CaseSensitivity) : Option (PosixRegex regex_t) :=
  let regex_flags := PosixRegex.regex_flags pattern case_folding
  let c_str_pattern := if pattern.isEmpty then c_str (ascii "()") else c_str pattern
  match regcomp c_str_pattern regex_flags with
  | (ret, regex) => if ret ≠ 0 then none else some { regex := regex }

/-! ## queue.cc under concurrent callers

The mutex makes the locked parts of `enqueue` and `dequeue` atomic with respect
to each other.  The emptiness test of `dequeue` is made before the mutex is
taken, so another thread's locked part can run between the test and the removal. -/

/-- The emptiness test of `dequeue` (`if (queue->front == NULL) return 0;`), made
without the mutex: true when the call goes on to the locked part. -/
def dequeue_test (s : State) : Bool :=
  s.queue.front.isSome

/-- The part of `dequeue` after the test, run under the mutex: it reads
`queue->front->next` without testing `front` again; `none` when `front` is `NULL`
or dangling at that moment. -/
def dequeue_locked (s : State) : Option (Int × String × State) :=
  match s.queue.front with
  | none => none
  | some tmp =>
    match s.heap tmp with
    | none => none
    | some node =>
      some (1, node.path,
        { heap := Queue_node_free s.heap tmp, queue := { s.queue with front := node.next } })

/-- One atomic step of a thread: a producer's `enqueue` (its node is private
until the locked append), the emptiness test of a consumer's `dequeue`, or the
locked removal of a consumer that passed the test. -/
inductive Step where
  | enqueue (malloc : Option Nat) (path : String)
  | test (consumer : Nat)
  | remove (consumer : Nat)
deriving DecidableEq, Repr

/-- The memory shared by the threads, the consumers that passed the emptiness
test and have not yet run the locked part, and the paths delivered so far with
the consumer that got them. -/
structure Shared where
  mem : State
  proceeding : List Nat
  delivered : List (Nat × String)

/-- The effect of one step; `none` when the step dereferences a `NULL` or dead
pointer.  A `remove` of a consumer that is not proceeding is no step of the
program and changes nothing. -/
def concurrent_step (sys : Shared) : Step → Option Shared
  | Step.enqueue malloc path =>
    match enqueue malloc sys.mem path with
    | none => none
    | some (_, mem) => some { sys with mem := mem }
  | Step.test consumer =>
    if dequeue_test sys.mem then some { sys with proceeding := consumer :: sys.proceeding }
    else some sys
  | Step.remove consumer =>
    if consumer ∈ sys.proceeding then
      match dequeue_locked sys.mem with
      | none => none
      | some (_, path, mem) =>
        some { mem := mem, proceeding := sys.proceeding.erase consumer,
               delivered := sys.delivered ++ [(consumer, path)] }
    else some sys

/-- An interleaving of the threads' steps. -/
def concurrent_run : Shared → List Step → Option Shared
  | sys, [] => some sys
  | sys, step :: rest =>
    match concurrent_step sys step with
    | none => none
    | some sys1 => concurrent_run sys1 rest

/-- The matchers of the program that are modelled here: every `FixedString`,
every `PosixRegex` over the given engine, and every `PatternList` of such
matchers. -/
inductive Matcher {regex_t : Type} (regexec : regex_t → List Nat → Nat → Int × Nat × Nat) :
    Regengine → Prop
  | fixed (fs : FixedString) : Matcher regexec fs.toRegengine
  | posix (re : PosixRegex regex_t) : Matcher regexec (re.toRegengine regexec)
  | list (pl : PatternList) (hall : ∀ r ∈ pl.patterns, Matcher regexec r) :
      Matcher regexec pl.toRegengine

/-! ## Work queue: lemmas -/

theorem Heap.store_same (h : Heap) (a : Nat) (node : Queue_node) :
    h.store a node a = some node := by
  simp [Heap.store]

theorem Heap.store_other (h : Heap) (a b : Nat) (node : Queue_node) (hne : b ≠ a) :
    h.store a node b = h b := by
  simp [Heap.store, hne]

theorem Heap.release_other (h : Heap) (a b : Nat) (hne : b ≠ a) :
    h.release a b = h b := by
  simp [Heap.release, hne]

/-- A chain only depends on the heap cells of its own nodes. -/
theorem Chain.congr {h h' : Heap} :
    ∀ (l : List (Nat × String)) (p : Option Nat),
      (∀ a ∈ l.map Prod.fst, h' a = h a) → Chain h p l → Chain h' p l
  | [], _, _, hc => hc
  | (a, x) :: rest, p, hagree, hc => by
    obtain ⟨hp, nx, hcell, hrest⟩ := hc
    refine ⟨hp, nx, ?_, Chain.congr rest nx (fun b hb => hagree b ?_) hrest⟩
    · rw [hagree a (by simp)]; exact hcell
    · simp only [List.map_cons, List.mem_cons]; exact Or.inr hb

/-- Every node of a chain is live. -/
theorem Chain.live {h : Heap} :
    ∀ (l : List (Nat × String)) (p : Option Nat), Chain h p l →
      ∀ a ∈ l.map Prod.fst, h a ≠ none
  | [], _, _, a, ha => by simp at ha
  | (b, x) :: rest, p, hc, a, ha => by
    obtain ⟨_, nx, hcell, hrest⟩ := hc
    simp only [List.map_cons, List.mem_cons] at ha
    rcases ha with rfl | ha
    · simp [hcell]
    · exact Chain.live rest nx hrest a ha

/-- The last node of a chain has a `NULL` link. -/
theorem Chain.last_cell {h : Heap} :
    ∀ (l : List (Nat × String)) (p : Option Nat), Chain h p l →
      ∀ r y, l.getLast? = some (r, y) → h r = some { path := y, next := none }
  | [], _, _, r, y, hl => by simp at hl
  | [(b, x)], p, hc, r, y, hl => by
    obtain ⟨_, nx, hcell, hrest⟩ := hc
    simp only [List.getLast?_singleton, Option.some.injEq, Prod.mk.injEq] at hl
    obtain ⟨rfl, rfl⟩ := hl
    have : nx = none := hrest
    rw [hcell, this]
  | (b, x) :: c :: rest, p, hc, r, y, hl => by
    obtain ⟨_, nx, _, hrest⟩ := hc
    rw [List.getLast?_cons_cons] at hl
    exact Chain.last_cell (c :: rest) nx hrest r y hl

/-- Linking a new node behind the last node of a chain extends the chain. -/
theorem Chain.snoc {h : Heap} (a : Nat) (x : String) (r : Nat) (y : String)
    (hfresh : h a = none) :
    ∀ (l : List (Nat × String)) (p : Option Nat), Chain h p l → (l.map Prod.fst).Nodup →
      l.getLast? = some (r, y) →
      Chain ((h.store a { path := x, next := none }).store r { path := y, next := some a })
        p (l ++ [(a, x)])
  | [], _, _, _, hl => by simp at hl
  | [(b, z)], p, hc, _, hl => by
    obtain ⟨hp, nx, hcell, hrest⟩ := hc
    simp only [List.getLast?_singleton, Option.some.injEq, Prod.mk.injEq] at hl
    obtain ⟨rfl, rfl⟩ := hl
    have hne : a ≠ b := by
      intro hab; rw [hab, hcell] at hfresh; exact absurd hfresh (by simp)
    refine ⟨hp, some a, Heap.store_same _ _ _, rfl, none, ?_, rfl⟩
    rw [Heap.store_other _ _ _ _ hne, Heap.store_same]
  | (b, z) :: c :: rest, p, hc, hnd, hl => by
    obtain ⟨hp, nx, hcell, hrest⟩ := hc
    rw [List.getLast?_cons_cons] at hl
    have hnd' : ((c :: rest).map Prod.fst).Nodup := by
      simp only [List.map_cons, List.nodup_cons] at hnd ⊢; exact hnd.2
    have hr_mem : r ∈ (c :: rest).map Prod.fst := by
      have := List.mem_of_getLast?_eq_some hl
      exact List.mem_map_of_mem Prod.fst this
    have hbr : b ≠ r := by
      intro hbr
      simp only [List.map_cons, List.nodup_cons] at hnd
      apply hnd.1
      rw [hbr]
      simpa using hr_mem
    have hba : b ≠ a := by
      intro hba; rw [← hba, hcell] at hfresh; exact absurd hfresh (by simp)
    refine ⟨hp, nx, ?_, Chain.snoc a x r y hfresh (c :: rest) nx hrest hnd' hl⟩
    rw [Heap.store_other _ _ _ _ hbr, Heap.store_other _ _ _ _ hba]; exact hcell

/-- A freshly created queue represents the empty list, whatever the heap. -/
theorem Queue_create_represents (malloc_ok : Bool) (ret : Int) (q : Queue) (h : Heap)
    (hq : Queue_create malloc_ok ret = some q) : Represents { heap := h, queue := q } [] := by
  have hq' : q = { front := none, rear := none } := by
    unfold Queue_create at hq
    split at hq
    · simp at hq
    · split at hq
      · simp at hq
      · simpa using hq.symm
  subst hq'
  exact ⟨rfl, by simp, by simp⟩

/-- `enqueue` whose allocation fails returns 0 and changes nothing. -/
theorem enqueue_alloc_failed (s : State) (path : String) : enqueue none s path = some (0, s) := rfl

/-- `enqueue` with a fresh node on a well-formed queue: it returns 1, the content
grows by the new node at the tail, and only the new address becomes live. -/
theorem enqueue_represents (s : State) (l : List (Nat × String)) (a : Nat) (path : String)
    (hrep : Represents s l) (hfresh : s.heap a = none) :
    ∃ s1, enqueue (some a) s path = some (1, s1) ∧ Represents s1 (l ++ [(a, path)]) ∧
      (∀ b, s1.heap b = none ↔ (s.heap b = none ∧ b ≠ a)) ∧
      s1.queue.rear = some a ∧
      s1.queue.front = (if l = [] then some a else s.queue.front) := by
  obtain ⟨hchain, hnd, hrear⟩ := hrep
  have hnotin : a ∉ l.map Prod.fst := fun hin => Chain.live l _ hchain a hin hfresh
  have hnd1 : ((l ++ [(a, path)]).map Prod.fst).Nodup := by
    rw [List.map_append, List.nodup_append]
    refine ⟨hnd, by simp, ?_⟩
    intro b hb hb'
    simp only [List.map_cons, List.map_nil, List.mem_singleton] at hb'
    exact hnotin (hb' ▸ hb)
  rcases List.eq_nil_or_concat l with hl | ⟨l0, ⟨r, y⟩, hl⟩
  · subst hl
    have hfront : s.queue.front = none := hchain
    refine ⟨{ heap := s.heap.store a { path := path, next := none },
              queue := { front := some a, rear := some a } }, ?_, ⟨?_, hnd1, ?_⟩, ?_, rfl, ?_⟩
    · simp [enqueue, Queue_node_create, hfront]
    · exact ⟨rfl, none, Heap.store_same _ _ _, rfl⟩
    · intro b x hb
      simp only [List.nil_append, List.getLast?_singleton, Option.some.injEq,
        Prod.mk.injEq] at hb
      rw [hb.1]
    · intro b
      by_cases hb : b = a
      · subst hb; simp [Heap.store_same]
      · simp [Heap.store_other _ _ _ _ hb, hb]
    · simp
  · have hlast : l.getLast? = some (r, y) := by rw [hl]; simp
    have hrear' := hrear r y hlast
    have hcell := Chain.last_cell l _ hchain r y hlast
    have hra : r ≠ a := by
      intro hra; rw [hra, hfresh] at hcell; exact absurd hcell (by simp)
    have hlne : l ≠ [] := by rw [hl]; simp
    obtain ⟨f, hf⟩ : ∃ f, s.queue.front = some f := by
      cases l with
      | nil => exact absurd rfl hlne
      | cons c rest => exact ⟨c.1, hchain.1⟩
    refine ⟨{ heap := (s.heap.store a { path := path, next := none }).store r
                { path := y, next := some a },
              queue := { front := some f, rear := some a } }, ?_, ⟨?_, hnd1, ?_⟩, ?_, rfl, ?_⟩
    · simp [enqueue, Queue_node_create, hf, hrear', Heap.store_other _ _ _ _ hra, hcell]
    · have := Chain.snoc a path r y hfresh l _ hchain hnd hlast
      rw [hf] at this; exact this
    · intro b x hb
      rw [List.getLast?_append] at hb
      simp only [List.getLast?_singleton, Option.or, Option.some.injEq,
        Prod.mk.injEq] at hb
      rw [hb.1]
    · intro b
      by_cases hb : b = a
      · subst hb; simp [Heap.store_other _ _ _ _ hra.symm, Heap.store_same]
      · by_cases hbr : b = r
        · subst hbr; simp [Heap.store_same, hcell, hb]
        · simp [Heap.store_other _ _ _ _ hbr, Heap.store_other _ _ _ _ hb, hb]
    · simp [hlne, hf]

/-- `dequeue` on a well-formed empty queue returns 0 and changes nothing. -/
theorem dequeue_represents_nil (s : State) (path : String) (hrep : Represents s []) :
    dequeue s path = some (0, path, s) := by
  have hfront : s.queue.front = none := hrep.1
  simp [dequeue, hfront]

/-- `dequeue` on a well-formed non-empty queue returns 1, delivers the head path,
and leaves the tail; only the head address stops being live. -/
theorem dequeue_represents_cons (s : State) (a : Nat) (x : String) (l : List (Nat × String))
    (path : String) (hrep : Represents s ((a, x) :: l)) :
    ∃ s1, dequeue s path = some (1, x, s1) ∧ Represents s1 l ∧
      (∀ b, s1.heap b = none ↔ (s.heap b = none ∨ b = a)) := by
  obtain ⟨⟨hfront, nx, hcell, hrest⟩, hnd, hrear⟩ := hrep
  simp only [List.map_cons, List.nodup_cons] at hnd
  refine ⟨{ heap := s.heap.release a, queue := { s.queue with front := nx } }, ?_,
    ⟨?_, hnd.2, ?_⟩, ?_⟩
  · simp [dequeue, hfront, hcell, Queue_node_free]
  · refine Chain.congr l nx (fun b hb => ?_) hrest
    have hne : b ≠ a := fun hba => hnd.1 (hba ▸ hb)
    exact Heap.release_other _ _ _ hne
  · intro b y hb
    cases l with
    | nil => simp at hb
    | cons c rest =>
      apply hrear b y
      rw [List.getLast?_cons_cons]; exact hb
  · intro b
    by_cases hb : b = a
    · subst hb; simp [Heap.release]
    · simp [Heap.release_other _ _ _ hb, hb]

/-- A run of enqueues with distinct fresh addresses: every call returns 1 and the
nodes are appended in call order. -/
theorem run_enqueues :
    ∀ (allocs : List Nat) (paths : List String) (s : State) (l : List (Nat × String))
      (pv : String), Represents s l → allocs.length = paths.length → allocs.Nodup →
      (∀ a ∈ allocs, s.heap a = none) →
      ∃ s1, run s pv (List.zipWith (fun a p => Call.enqueue (some a) p) allocs paths)
          = some (paths.map (fun _ => (1, pv)), s1, pv) ∧
        Represents s1 (l ++ allocs.zip paths)
  | [], [], s, l, pv, hrep, _, _, _ => ⟨s, rfl, by simpa using hrep⟩
  | [], _ :: _, _, _, _, _, hlen, _, _ => by simp at hlen
  | _ :: _, [], _, _, _, _, hlen, _, _ => by simp at hlen
  | a :: allocs, p :: paths, s, l, pv, hrep, hlen, hnd, hfresh => by
    obtain ⟨s1, he, hrep1, hlive, _, _⟩ :=
      enqueue_represents s l a p hrep (hfresh a (by simp))
    have hnd' := List.nodup_cons.mp hnd
    obtain ⟨s2, hrun, hrep2⟩ := run_enqueues allocs paths s1 (l ++ [(a, p)]) pv hrep1
      (by simpa using hlen) hnd'.2
      (fun b hb => (hlive b).mpr ⟨hfresh b (List.mem_cons_of_mem _ hb),
        fun hba => hnd'.1 (hba ▸ hb)⟩)
    refine ⟨s2, ?_, ?_⟩
    · simp only [List.zipWith_cons_cons, run, he, hrun, List.map_cons]
    · simpa using hrep2

/-- Dequeuing as often as the queue is long delivers the paths in order and
empties the queue. -/
theorem run_dequeues :
    ∀ (l : List (Nat × String)) (s : State) (pv : String), Represents s l →
      ∃ s1, run s pv (List.replicate l.length Call.dequeue)
          = some (l.map (fun n => (1, n.2)), s1, ((l.map Prod.snd).getLast?).getD pv) ∧
        Represents s1 []
  | [], s, pv, hrep => ⟨s, rfl, hrep⟩
  | (a, x) :: l, s, pv, hrep => by
    obtain ⟨s1, hd, hrep1, _⟩ := dequeue_represents_cons s a x l pv hrep
    obtain ⟨s2, hrun, hrep2⟩ := run_dequeues l s1 x hrep1
    refine ⟨s2, ?_, hrep2⟩
    simp only [List.length_cons, List.replicate_succ, run, hd, hrun, List.map_cons]
    cases l with
    | nil => simp
    | cons c rest =>
      simp only [List.map_cons]
      rw [List.getLast?_cons_cons, List.getLast?_eq_getLast _ (List.cons_ne_nil _ _)]
      simp

/-- The linked queue simulates the abstract list queue along every run that the
allocator contract allows. -/
theorem run_simulates :
    ∀ (calls : List Call) (s : State) (l : List (Nat × String)) (pv : String),
      Represents s l → AllocFresh s pv calls →
      ∃ s1 l1, run s pv calls
          = some ((abs_run (l.map Prod.snd) pv calls).1, s1,
              (abs_run (l.map Prod.snd) pv calls).2.2) ∧
        Represents s1 l1 ∧ l1.map Prod.snd = (abs_run (l.map Prod.snd) pv calls).2.1
  | [], s, l, pv, hrep, _ => ⟨s, l, by simp [run, abs_run], hrep, by simp [abs_run]⟩
  | Call.enqueue none p :: rest, s, l, pv, hrep, hfresh => by
    obtain ⟨s1, l1, hrun, hrep1, hl1⟩ :=
      run_simulates rest s l pv hrep (hfresh.2 0 s (enqueue_alloc_failed s p))
    exact ⟨s1, l1, by simp only [run, enqueue_alloc_failed, hrun, abs_run], hrep1,
      by simpa only [abs_run] using hl1⟩
  | Call.enqueue (some a) p :: rest, s, l, pv, hrep, hfresh => by
    obtain ⟨s0, he, hrep0, _⟩ := enqueue_represents s l a p hrep (hfresh.1 a rfl)
    obtain ⟨s1, l1, hrun, hrep1, hl1⟩ :=
      run_simulates rest s0 (l ++ [(a, p)]) pv hrep0 (hfresh.2 1 s0 he)
    simp only [List.map_append, List.map_cons, List.map_nil] at hrun hl1
    exact ⟨s1, l1, by simp only [run, he, hrun, abs_run], hrep1,
      by simpa only [abs_run] using hl1⟩
  | Call.dequeue :: rest, s, [], pv, hrep, hfresh => by
    have hd := dequeue_represents_nil s pv hrep
    obtain ⟨s1, l1, hrun, hrep1, hl1⟩ := run_simulates rest s [] pv hrep (hfresh 0 pv s hd)
    simp only [List.map_nil] at hrun hl1
    exact ⟨s1, l1, by simp only [run, hd, hrun, abs_run, List.map_nil], hrep1,
      by simpa only [abs_run, List.map_nil] using hl1⟩
  | Call.dequeue :: rest, s, (a, x) :: l, pv, hrep, hfresh => by
    obtain ⟨s0, hd, hrep0, _⟩ := dequeue_represents_cons s a x l pv hrep
    obtain ⟨s1, l1, hrun, hrep1, hl1⟩ := run_simulates rest s0 l x hrep0 (hfresh 1 x s0 hd)
    exact ⟨s1, l1, by simp only [run, hd, hrun, abs_run, List.map_cons], hrep1,
      by simpa only [abs_run, List.map_cons] using hl1⟩

/-- In the abstract queue, what has been dequeued followed by what is left is
what was there followed by what has been enqueued. -/
theorem abs_run_conservation :
    ∀ (calls : List Call) (l : List String) (pv : String),
      dequeued calls (abs_run l pv calls).1 ++ (abs_run l pv calls).2.1
        = l ++ enqueued calls (abs_run l pv calls).1
  | [], l, pv => by simp [abs_run, dequeued, enqueued]
  | Call.enqueue none p :: rest, l, pv => by
    simpa [abs_run, dequeued, enqueued] using abs_run_conservation rest l pv
  | Call.enqueue (some a) p :: rest, l, pv => by
    simpa [abs_run, dequeued, enqueued] using abs_run_conservation rest (l ++ [p]) pv
  | Call.dequeue :: rest, [], pv => by
    simpa [abs_run, dequeued, enqueued] using abs_run_conservation rest [] pv
  | Call.dequeue :: rest, x :: l, pv => by
    simpa [abs_run, dequeued, enqueued] using abs_run_conservation rest l x

/-! ## Work queue: claims -/

/-- C1. Work queue FIFO: on a freshly created queue, `enqueue(p1)`, ...,
`enqueue(pn)` (node allocations succeeding, `malloc` handing out distinct blocks
that were not live) all return 1; the next `n` calls of `dequeue` each return 1
and deliver `p1`, ..., `pn` in that order; one more `dequeue` returns 0 and leaves
the caller's variable alone. -/
theorem queue_fifo (heap0 : Heap) (malloc_ok : Bool) (ret : Int) (q : Queue)
    (hq : Queue_create malloc_ok ret = some q)
    (paths : List String) (allocs : List Nat) (pv : String)
    (hlen : allocs.length = paths.length) (hnd : allocs.Nodup)
    (hfresh : ∀ a ∈ allocs, heap0 a = none) :
    ∃ s1 s2,
      run { heap := heap0, queue := q } pv
          (List.zipWith (fun a p => Call.enqueue (some a) p) allocs paths)
        = some (paths.map (fun _ => (1, pv)), s1, pv) ∧
      run s1 pv (List.replicate paths.length Call.dequeue)
        = some (paths.map (fun p => (1, p)), s2, (paths.getLast?).getD pv) ∧
      dequeue s2 ((paths.getLast?).getD pv) = some (0, (paths.getLast?).getD pv, s2) := by
  obtain ⟨s1, hrun1, hrep1⟩ := run_enqueues allocs paths { heap := heap0, queue := q } [] pv
    (Queue_create_represents malloc_ok ret q heap0 hq) hlen hnd hfresh
  obtain ⟨s2, hrun2, hrep2⟩ := run_dequeues _ s1 pv hrep1
  have hsnd : (allocs.zip paths).map Prod.snd = paths :=
    List.map_snd_zip _ _ (le_of_eq hlen.symm)
  have hlen2 : ([] ++ allocs.zip paths).length = paths.length := by
    simp [List.length_zip, hlen]
  refine ⟨s1, s2, hrun1, ?_, ?_⟩
  · rw [hlen2] at hrun2
    rw [hrun2]
    simp only [List.nil_append, hsnd]
    rw [← hsnd, List.map_map]
    simp [Function.comp_def, hsnd]
  · have := dequeue_represents_nil s2 ((paths.getLast?).getD pv) hrep2
    exact this

/-- C1 at a concrete input: three paths, blocks 7, 3 and 5. -/
theorem queue_fifo_witness :
    ∃ s1 s2,
      run { heap := fun _ => none, queue := { front := none, rear := none } } ""
          (List.zipWith (fun a p => Call.enqueue (some a) p) [7, 3, 5] ["a.pdf", "b.pdf", "c.pdf"])
        = some (["a.pdf", "b.pdf", "c.pdf"].map (fun _ => (1, "")), s1, "") ∧
      run s1 "" (List.replicate ["a.pdf", "b.pdf", "c.pdf"].length Call.dequeue)
        = some (["a.pdf", "b.pdf", "c.pdf"].map (fun p => (1, p)), s2,
            (["a.pdf", "b.pdf", "c.pdf"].getLast?).getD "") ∧
      dequeue s2 ((["a.pdf", "b.pdf", "c.pdf"].getLast?).getD "")
        = some (0, (["a.pdf", "b.pdf", "c.pdf"].getLast?).getD "", s2) :=
  queue_fifo (fun _ => none) true 0 { front := none, rear := none } (by decide)
    ["a.pdf", "b.pdf", "c.pdf"] [7, 3, 5] "" (by decide) (by decide) (by simp)

/-- C9. `enqueue` succeeds or leaves the queue untouched: on a well-formed queue
holding the nodes `l`, if the node allocation succeeds (with a block `a` that was
not live) the call returns 1, the content becomes the old content followed by
the new path, and `front` is the new node if the queue was empty and unchanged
otherwise; if the allocation fails the call returns 0 and the memory (header and
every node) is the same as before. -/
theorem enqueue_succeeds_or_untouched (s : State) (l : List (Nat × String)) (path : String)
    (hrep : Represents s l) :
    (∀ a, s.heap a = none →
      ∃ s1, enqueue (some a) s path = some (1, s1) ∧
        Represents s1 (l ++ [(a, path)]) ∧
        (l ++ [(a, path)]).map Prod.snd = l.map Prod.snd ++ [path] ∧
        s1.queue.front = (if l = [] then some a else s.queue.front)) ∧
    enqueue none s path = some (0, s) := by
  refine ⟨fun a ha => ?_, enqueue_alloc_failed s path⟩
  obtain ⟨s1, he, hrep1, _, _, hfront⟩ := enqueue_represents s l a path hrep ha
  exact ⟨s1, he, hrep1, by simp, hfront⟩

/-- C9 at a concrete input: a queue holding one node at address 5. -/
theorem enqueue_succeeds_or_untouched_witness :
    (∀ a, (Heap.store (fun _ => none) 5 { path := "a.pdf", next := none }) a = none →
      ∃ s1, enqueue (some a)
          { heap := Heap.store (fun _ => none) 5 { path := "a.pdf", next := none },
            queue := { front := some 5, rear := some 5 } } "b.pdf" = some (1, s1) ∧
        Represents s1 ([(5, "a.pdf")] ++ [(a, "b.pdf")]) ∧
        ([(5, "a.pdf")] ++ [(a, "b.pdf")]).map Prod.snd
          = [(5, "a.pdf")].map Prod.snd ++ ["b.pdf"] ∧
        s1.queue.front = (if [(5, "a.pdf")] = [] then some a else some 5)) ∧
    enqueue none
        { heap := Heap.store (fun _ => none) 5 { path := "a.pdf", next := none },
          queue := { front := some 5, rear := some 5 } } "b.pdf"
      = some (0, { heap := Heap.store (fun _ => none) 5 { path := "a.pdf", next := none },
                   queue := { front := some 5, rear := some 5 } }) :=
  enqueue_succeeds_or_untouched
    { heap := Heap.store (fun _ => none) 5 { path := "a.pdf", next := none },
      queue := { front := some 5, rear := some 5 } } [(5, "a.pdf")] "b.pdf"
    ⟨⟨rfl, none, rfl, rfl⟩, by simp, by simp⟩

/-- C10. Strict FIFO under sequential interleaving: every finite sequence of
`enqueue` and `dequeue` calls on a freshly created queue (each successful
`malloc` handing out a block that is not live at that moment) runs to the end
without touching a dead pointer and is observed exactly like the abstract list
queue: same return values, same delivered paths, final content equal to the
abstract list; hence the dequeued paths are a prefix of the successfully
enqueued paths. -/
theorem queue_refines_list (heap0 : Heap) (malloc_ok : Bool) (ret : Int) (q : Queue)
    (hq : Queue_create malloc_ok ret = some q) (calls : List Call) (pv : String)
    (hfresh : AllocFresh { heap := heap0, queue := q } pv calls) :
    ∃ results s1 l1,
      run { heap := heap0, queue := q } pv calls
        = some (results, s1, (abs_run [] pv calls).2.2) ∧
      results = (abs_run [] pv calls).1 ∧
      Represents s1 l1 ∧ l1.map Prod.snd = (abs_run [] pv calls).2.1 ∧
      dequeued calls results <+: enqueued calls results := by
  obtain ⟨s1, l1, hrun, hrep1, hl1⟩ := run_simulates calls { heap := heap0, queue := q } [] pv
    (Queue_create_represents malloc_ok ret q heap0 hq) hfresh
  refine ⟨_, s1, l1, hrun, rfl, hrep1, hl1, ?_⟩
  have hcons := abs_run_conservation calls [] pv
  simp only [List.map_nil, List.nil_append] at hcons ⊢
  exact ⟨_, hcons⟩

/-- C10 at a concrete input: the queue is emptied twice and block 1 is handed
out again after it was freed, while `rear` still points at it. -/
theorem queue_refines_list_witness :
    ∃ results s1 l1,
      run { heap := fun _ => none, queue := { front := none, rear := none } } ""
          [Call.enqueue (some 1) "a", Call.enqueue none "z", Call.dequeue, Call.dequeue,
           Call.enqueue (some 1) "b", Call.enqueue (some 2) "c", Call.dequeue]
        = some (results, s1,
            (abs_run [] "" [Call.enqueue (some 1) "a", Call.enqueue none "z", Call.dequeue,
              Call.dequeue, Call.enqueue (some 1) "b", Call.enqueue (some 2) "c",
              Call.dequeue]).2.2) ∧
      results = (abs_run [] "" [Call.enqueue (some 1) "a", Call.enqueue none "z", Call.dequeue,
              Call.dequeue, Call.enqueue (some 1) "b", Call.enqueue (some 2) "c",
              Call.dequeue]).1 ∧
      Represents s1 l1 ∧
      l1.map Prod.snd = (abs_run [] "" [Call.enqueue (some 1) "a", Call.enqueue none "z",
              Call.dequeue, Call.dequeue, Call.enqueue (some 1) "b", Call.enqueue (some 2) "c",
              Call.dequeue]).2.1 ∧
      dequeued [Call.enqueue (some 1) "a", Call.enqueue none "z", Call.dequeue, Call.dequeue,
           Call.enqueue (some 1) "b", Call.enqueue (some 2) "c", Call.dequeue] results
        <+: enqueued [Call.enqueue (some 1) "a", Call.enqueue none "z", Call.dequeue,
           Call.dequeue, Call.enqueue (some 1) "b", Call.enqueue (some 2) "c", Call.dequeue]
           results :=
  queue_refines_list (fun _ => none) true 0 { front := none, rear := none } (by decide)
    [Call.enqueue (some 1) "a", Call.enqueue none "z", Call.dequeue, Call.dequeue,
     Call.enqueue (some 1) "b", Call.enqueue (some 2) "c", Call.dequeue] ""
    (by simp [AllocFresh, enqueue, dequeue, Queue_node_create, Queue_node_free, Heap.store,
          Heap.release])

/-! ## String search: lemmas -/

theorem fold_case_zero (ci : Bool) (c : Nat) : fold_case ci c = fold_case ci 0 ↔ c = 0 := by
  cases ci
  · simp [fold_case]
  · have h0 : fold_case true 0 = 0 := by decide
    rw [h0]
    simp only [fold_case, tolower, if_true]
    constructor
    · intro h
      split at h
      · omega
      · exact h
    · rintro rfl; rfl

/-- What `starts_with` computes, for a comparison of folded bytes. -/
theorem starts_with_iff (ci : Bool) :
    ∀ (hay needle : List Nat),
      starts_with (fun a b => fold_case ci a == fold_case ci b) hay needle = true ↔
        (hay.take needle.length).map (fold_case ci) = needle.map (fold_case ci)
  | _, [] => by simp [starts_with]
  | [], n :: needle => by simp [starts_with]
  | h :: hay, n :: needle => by
    simp only [starts_with, Bool.and_eq_true, beq_iff_eq, List.length_cons, List.take_succ_cons,
      List.map_cons, List.cons.injEq, starts_with_iff ci hay needle]

/-- A match of `starts_with` fits into the haystack. -/
theorem starts_with_length (eq : Nat → Nat → Bool) :
    ∀ (hay needle : List Nat), starts_with eq hay needle = true → needle.length ≤ hay.length
  | _, [], _ => by simp
  | [], n :: needle, h => by simp [starts_with] at h
  | c :: hay, n :: needle, h => by
    simp only [starts_with, Bool.and_eq_true] at h
    simpa using starts_with_length eq hay needle h.2

/-- `find_first` returns the least position at which the needle starts. -/
theorem find_first_some (eq : Nat → Nat → Bool) (needle : List Nat) :
    ∀ (hay : List Nat) (i : Nat), find_first eq needle hay = some i →
      i ≤ hay.length ∧ starts_with eq (hay.drop i) needle = true ∧
        ∀ j, j < i → starts_with eq (hay.drop j) needle = false
  | [], i, h => by
    simp only [find_first] at h
    split at h
    · simp only [Option.some.injEq] at h
      subst h
      simpa using ‹starts_with eq [] needle = true›
    · simp at h
  | c :: hay, i, h => by
    simp only [find_first] at h
    split at h
    · simp only [Option.some.injEq] at h
      subst h
      simpa using ‹starts_with eq (c :: hay) needle = true›
    · rename_i hc
      simp only [Option.map_eq_some'] at h
      obtain ⟨k, hk, rfl⟩ := h
      obtain ⟨hle, hsw, hmin⟩ := find_first_some eq needle hay k hk
      refine ⟨by simpa using hle, by simpa using hsw, fun j hj => ?_⟩
      cases j with
      | zero => simpa using hc
      | succ j => simpa using hmin j (by omega)

/-- `find_first` fails only when the needle starts nowhere. -/
theorem find_first_none (eq : Nat → Nat → Bool) (needle : List Nat) :
    ∀ (hay : List Nat), find_first eq needle hay = none →
      ∀ j, starts_with eq (hay.drop j) needle = false
  | [], h, j => by
    simp only [find_first] at h
    split at h
    · simp at h
    · simpa using ‹¬ starts_with eq [] needle = true›
  | c :: hay, h, j => by
    simp only [find_first] at h
    split at h
    · simp at h
    · rename_i hc
      simp only [Option.map_eq_none'] at h
      cases j with
      | zero => simpa using hc
      | succ j => simpa using find_first_none eq needle hay h j

/-- Whenever the needle starts somewhere, `find_first` succeeds at or before
that position. -/
theorem find_first_le (eq : Nat → Nat → Bool) (needle hay : List Nat) (j : Nat)
    (hj : starts_with eq (hay.drop j) needle = true) :
    ∃ i, find_first eq needle hay = some i ∧ i ≤ j := by
  cases h : find_first eq needle hay with
  | none => rw [find_first_none eq needle hay h j] at hj; cases hj
  | some i =>
    refine ⟨i, rfl, ?_⟩
    by_contra hlt
    rw [(find_first_some eq needle hay i h).2.2 j (by omega)] at hj
    cases hj

/-- The empty needle is found at once. -/
theorem find_first_nil (eq : Nat → Nat → Bool) (hay : List Nat) :
    find_first eq [] hay = some 0 := by
  cases hay <;> simp [find_first, starts_with]

theorem not_nul_zero : not_nul 0 = false := rfl

theorem not_nul_of_ne {c : Nat} (hc : c ≠ 0) : not_nul c = true := by
  simp [not_nul, hc]

theorem takeWhile_append_zero (t : List Nat) :
    (t ++ [0]).takeWhile not_nul = t.takeWhile not_nul := by
  induction t with
  | nil => simp [List.takeWhile, not_nul_zero]
  | cons c t ih =>
    by_cases hc : c = 0
    · subst hc; simp [List.takeWhile, not_nul_zero]
    · simp [List.takeWhile, not_nul_of_ne hc, ih]

/-- The C string behind `&str[offset]` is the text from `offset` up to the next
zero byte. -/
theorem cstring_c_str_drop (str : List Nat) (offset : Nat) (hoff : offset ≤ str.length) :
    cstring ((c_str str).drop offset) = (str.drop offset).takeWhile not_nul := by
  unfold cstring c_str
  rw [List.drop_append_of_le_length hoff, takeWhile_append_zero]

/-- The C string of `c_str()` is the literal cut at its first zero byte. -/
theorem cstring_c_str (lit : List Nat) :
    cstring (c_str lit) = lit.takeWhile not_nul := by
  unfold cstring c_str
  exact takeWhile_append_zero lit

theorem takeWhile_of_no_zero (lit : List Nat) (h : 0 ∉ lit) :
    lit.takeWhile not_nul = lit := by
  rw [List.takeWhile_eq_self_iff]
  intro c hc
  exact not_nul_of_ne (fun h0 => h (h0 ▸ hc))

theorem drop_takeWhile_length (t : List Nat) :
    ∀ j, j ≤ (t.takeWhile not_nul).length →
      (t.takeWhile not_nul).drop j = (t.drop j).takeWhile not_nul := by
  induction t with
  | nil => intro j _; simp
  | cons c t ih =>
    intro j hj
    by_cases hc : c = 0
    · subst hc
      rw [List.takeWhile_cons_of_neg (by simp [not_nul_zero])] at hj ⊢
      simp only [List.length_nil, Nat.le_zero_eq] at hj
      subst hj
      simp [List.takeWhile_cons_of_neg, not_nul_zero]
    · cases j with
      | zero => simp
      | succ j =>
        rw [List.takeWhile_cons_of_pos (not_nul_of_ne hc)] at hj ⊢
        simp only [List.length_cons, Nat.add_le_add_iff_right] at hj
        simpa using ih j hj

/-- A needle without zero byte starts in the C string exactly when it starts in
the underlying buffer. -/
theorem starts_with_takeWhile (ci : Bool) :
    ∀ (t needle : List Nat), 0 ∉ needle →
      starts_with (fun a b => fold_case ci a == fold_case ci b)
          (t.takeWhile not_nul) needle
        = starts_with (fun a b => fold_case ci a == fold_case ci b) t needle
  | _, [], _ => by simp [starts_with]
  | [], n :: needle, _ => by simp [starts_with]
  | c :: t, n :: needle, h => by
    have hn : n ≠ 0 := fun hn => h (by simp [hn])
    have hrest : 0 ∉ needle := fun hin => h (List.mem_cons_of_mem _ hin)
    by_cases hc : c = 0
    · subst hc
      have : (fold_case ci 0 == fold_case ci n) = false := by
        rw [beq_eq_false_iff_ne]
        intro heq
        exact hn ((fold_case_zero ci n).mp heq.symm)
      rw [List.takeWhile_cons_of_neg (by simp [not_nul_zero])]
      simp [starts_with, this]
    · rw [List.takeWhile_cons_of_pos (not_nul_of_ne hc)]
      simp only [starts_with, starts_with_takeWhile ci t needle hrest]

/-! ## FixedString: lemmas -/

theorem getline_rest_length (input line rest : List Nat)
    (h : getline input = some (line, rest)) : rest.length < input.length := by
  cases input with
  | nil => simp [getline] at h
  | cons c t =>
    simp only [getline, Option.some.injEq, Prod.mk.injEq] at h
    obtain ⟨_, rfl⟩ := h
    have hle : ((c :: t).dropWhile not_newline).length ≤ (c :: t).length :=
      (List.dropWhile_sublist _).length_le
    simp only [List.length_drop, List.length_cons] at hle ⊢
    omega

/-- The loop of the constructor does not depend on the fuel once the fuel
exceeds the length of the remaining input. -/
theorem getline_loop_fuel :
    ∀ (fuel1 fuel2 : Nat) (input : List Nat) (patterns : List (List Nat)),
      input.length < fuel1 → input.length < fuel2 →
      getline_loop fuel1 input patterns = getline_loop fuel2 input patterns
  | 0, _, _, _, h1, _ => by omega
  | _ + 1, 0, _, _, _, h2 => by omega
  | fuel1 + 1, fuel2 + 1, input, patterns, h1, h2 => by
    unfold getline_loop
    cases hg : getline input with
    | none => rfl
    | some lr =>
      obtain ⟨line, rest⟩ := lr
      have hlt := getline_rest_length input line rest hg
      exact getline_loop_fuel fuel1 fuel2 rest (patterns ++ [line]) (by omega) (by omega)

/-- The search for one literal is `find_first` on the two C strings with the
comparison chosen by the literal's case rule. -/
theorem FixedString.search_eq (fs : FixedString) (str_begin pattern : List Nat) :
    fs.search str_begin pattern
      = find_first (fun a b => fold_case (fs.case_insensitive pattern) a
            == fold_case (fs.case_insensitive pattern) b)
          (cstring (c_str pattern)) (cstring str_begin) := by
  unfold FixedString.search
  cases fs.case_insensitive pattern
  · simp only [Bool.false_eq_true, if_false, strstr, fold_case]
  · simp only [if_true, strcasestr, fold_case]

theorem FixedString.exec_inv_step (fs : FixedString) (sb : List Nat) (seen : List (List Nat))
    (acc : Option Nat × List Nat) (p : List Nat) (hinv : fs.exec_inv sb seen acc) :
    fs.exec_inv sb (seen ++ [p]) (fs.exec_step sb acc p) := by
  obtain ⟨a1, a2⟩ := acc
  unfold FixedString.exec_step
  cases hs : fs.search sb p with
  | none =>
    cases a1 with
    | none =>
      simp only [FixedString.exec_inv] at hinv ⊢
      intro q hq
      rcases List.mem_append.mp hq with hq | hq
      · exact hinv q hq
      · simp only [List.mem_singleton] at hq; rw [hq]; exact hs
    | some r =>
      simp only [FixedString.exec_inv] at hinv ⊢
      obtain ⟨pre, post, hseen, hfound, hpre, hpost⟩ := hinv
      refine ⟨pre, post ++ [p], by simp [hseen], hfound, hpre, ?_⟩
      intro q hq r' hr'
      rcases List.mem_append.mp hq with hq | hq
      · exact hpost q hq r' hr'
      · simp only [List.mem_singleton] at hq; rw [hq, hs] at hr'; cases hr'
  | some x =>
    cases a1 with
    | none =>
      simp only [FixedString.exec_inv] at hinv ⊢
      refine ⟨seen, [], rfl, hs, ?_, by simp⟩
      intro q hq r' hr'
      rw [hinv q hq] at hr'; cases hr'
    | some r =>
      simp only [FixedString.exec_inv] at hinv
      obtain ⟨pre, post, hseen, hfound, hpre, hpost⟩ := hinv
      by_cases hlt : x < r
      · simp only [hlt, if_true, FixedString.exec_inv]
        refine ⟨seen, [], rfl, hs, ?_, by simp⟩
        intro q hq r' hr'
        rw [hseen] at hq
        rcases List.mem_append.mp hq with hq | hq
        · exact lt_trans hlt (hpre q hq r' hr')
        · rcases List.mem_cons.mp hq with hq | hq
          · rw [hq, hfound] at hr'
            simp only [Option.some.injEq] at hr'
            omega
          · exact lt_of_lt_of_le hlt (hpost q hq r' hr')
      · simp only [hlt, if_false, FixedString.exec_inv]
        refine ⟨pre, post ++ [p], by simp [hseen], hfound, hpre, ?_⟩
        intro q hq r' hr'
        rcases List.mem_append.mp hq with hq | hq
        · exact hpost q hq r' hr'
        · simp only [List.mem_singleton] at hq
          rw [hq, hs] at hr'
          simp only [Option.some.injEq] at hr'
          omega

theorem FixedString.exec_inv_foldl (fs : FixedString) (sb : List Nat) :
    ∀ (ps seen : List (List Nat)) (acc : Option Nat × List Nat), fs.exec_inv sb seen acc →
      fs.exec_inv sb (seen ++ ps) (ps.foldl (fs.exec_step sb) acc)
  | [], seen, acc, h => by simpa using h
  | p :: ps, seen, acc, h => by
    have := FixedString.exec_inv_foldl fs sb ps (seen ++ [p]) _
      (FixedString.exec_inv_step fs sb seen acc p h)
    simpa using this

/-- The invariant at the end of the loop of `FixedString::exec`. -/
theorem FixedString.exec_inv_final (fs : FixedString) (sb : List Nat) :
    fs.exec_inv sb fs.patterns (fs.exec_loop sb) := by
  unfold FixedString.exec_loop
  have := FixedString.exec_inv_foldl fs sb fs.patterns [] (none, [])
    (by simp [FixedString.exec_inv])
  simpa using this

/-- A successful `FixedString::exec` reports the least search result over all
literals, with the extent of the first literal (in pattern order) that attains
it. -/
theorem FixedString.exec_true (fs : FixedString) (str : List Nat) (offset : Nat) (m m' : Match)
    (h : fs.exec str offset m = (true, m')) :
    ∃ r pre pat post, fs.exec_loop ((c_str str).drop offset) = (some r, pat) ∧
      fs.patterns = pre ++ pat :: post ∧
      fs.search ((c_str str).drop offset) pat = some r ∧
      (∀ q ∈ pre, ∀ r', fs.search ((c_str str).drop offset) q = some r' → r < r') ∧
      (∀ q ∈ post, ∀ r', fs.search ((c_str str).drop offset) q = some r' → r ≤ r') ∧
      m' = { start := offset + r, end_ := offset + r + pat.length } := by
  have hinv := FixedString.exec_inv_final fs ((c_str str).drop offset)
  unfold FixedString.exec at h
  simp only at h
  generalize hacc : fs.exec_loop ((c_str str).drop offset) = acc at h hinv
  obtain ⟨a1, a2⟩ := acc
  cases a1 with
  | none => simp at h
  | some r =>
    simp only [Prod.mk.injEq, true_and] at h
    simp only [FixedString.exec_inv] at hinv
    obtain ⟨pre, post, hseen, hfound, hpre, hpost⟩ := hinv
    exact ⟨r, pre, a2, post, rfl, hseen, hfound, hpre, hpost, h.symm⟩

/-- `FixedString::exec` reports no match exactly when no literal is found, and
then leaves `m` alone. -/
theorem FixedString.exec_false_iff (fs : FixedString) (str : List Nat) (offset : Nat)
    (m : Match) :
    (fs.exec str offset m).1 = false ↔
      ∀ q ∈ fs.patterns, fs.search ((c_str str).drop offset) q = none := by
  have hinv := FixedString.exec_inv_final fs ((c_str str).drop offset)
  unfold FixedString.exec
  simp only
  generalize fs.exec_loop ((c_str str).drop offset) = acc at hinv
  obtain ⟨a1, a2⟩ := acc
  cases a1 with
  | none =>
    simp only [FixedString.exec_inv] at hinv
    simpa using hinv
  | some r =>
    simp only [FixedString.exec_inv] at hinv
    obtain ⟨pre, post, hseen, hfound, _, _⟩ := hinv
    simp only [Bool.true_eq_false, false_iff, not_forall]
    refine ⟨a2, by simp [hseen], ?_⟩
    rw [hfound]; simp

/-- An occurrence is a position inside the text at which the literal starts. -/
theorem occurs_at_iff (ci : Bool) (lit text : List Nat) (p : Nat) :
    occurs_at ci lit text p ↔
      p ≤ text.length ∧
        starts_with (fun a b => fold_case ci a == fold_case ci b) (text.drop p) lit = true := by
  unfold occurs_at
  rw [starts_with_iff]
  constructor
  · rintro ⟨hlen, heq⟩
    exact ⟨by omega, heq⟩
  · rintro ⟨hp, heq⟩
    refine ⟨?_, heq⟩
    have := congrArg List.length heq
    simp only [List.length_map, List.length_take, List.length_drop] at this
    omega

theorem take_takeWhile_length (t : List Nat) :
    t.take (t.takeWhile not_nul).length = t.takeWhile not_nul := by
  have h := List.takeWhile_append_dropWhile not_nul t
  calc t.take (t.takeWhile not_nul).length
      = (t.takeWhile not_nul ++ t.dropWhile not_nul).take (t.takeWhile not_nul).length := by
        rw [h]
    _ = t.takeWhile not_nul := List.take_left' rfl

/-- The window of the C string at `offset`, cut out of the text. -/
theorem take_window_drop (str : List Nat) (offset j : Nat) :
    (str.take (c_window_end str offset)).drop (offset + j)
      = ((str.drop offset).takeWhile not_nul).drop j := by
  unfold c_window_end
  rw [← List.drop_drop, List.drop_take]
  congr 1
  simp only [Nat.add_sub_cancel_left]
  exact take_takeWhile_length _

theorem window_length_le (str : List Nat) (offset : Nat) (hoff : offset ≤ str.length) :
    c_window_end str offset ≤ str.length := by
  unfold c_window_end
  have h1 : ((str.drop offset).takeWhile not_nul).length ≤ (str.drop offset).length :=
    (List.takeWhile_sublist _).length_le
  simp only [List.length_drop] at h1
  omega

/-- The search for a literal fails exactly when the literal's C string occurs
nowhere in the window of the text's C string at `offset`. -/
theorem FixedString.search_none_iff (fs : FixedString) (str lit : List Nat) (offset : Nat)
    (hoff : offset ≤ str.length) :
    fs.search ((c_str str).drop offset) lit = none ↔
      ∀ p, offset ≤ p →
        ¬ occurs_at (fs.case_insensitive lit) (cstring lit)
            (str.take (c_window_end str offset)) p := by
  rw [FixedString.search_eq, cstring_c_str, cstring_c_str_drop str offset hoff]
  have hwlen : (str.take (c_window_end str offset)).length = c_window_end str offset := by
    rw [List.length_take]; exact min_eq_left (window_length_le str offset hoff)
  constructor
  · intro hnone p hp hocc
    rw [occurs_at_iff] at hocc
    obtain ⟨j, rfl⟩ := Nat.exists_eq_add_of_le hp
    rw [take_window_drop] at hocc
    have := find_first_none _ _ _ hnone j
    unfold cstring at hocc
    rw [this] at hocc
    exact absurd hocc.2 (by simp)
  · intro hall
    cases hf : find_first (fun a b => fold_case (fs.case_insensitive lit) a
        == fold_case (fs.case_insensitive lit) b) (lit.takeWhile not_nul)
        ((str.drop offset).takeWhile not_nul) with
    | none => rfl
    | some i =>
      exfalso
      obtain ⟨hle, hsw, _⟩ := find_first_some _ _ _ i hf
      apply hall (offset + i) (by omega)
      rw [occurs_at_iff, take_window_drop, hwlen]
      exact ⟨by unfold c_window_end; omega, hsw⟩

/-- A literal without zero byte that is found at `r` occurs in the text at
`offset + r`. -/
theorem FixedString.search_some_occurs (fs : FixedString) (str lit : List Nat) (offset r : Nat)
    (hoff : offset ≤ str.length) (hnul : 0 ∉ lit)
    (h : fs.search ((c_str str).drop offset) lit = some r) :
    occurs_at (fs.case_insensitive lit) lit str (offset + r) := by
  rw [FixedString.search_eq, cstring_c_str, cstring_c_str_drop str offset hoff,
    takeWhile_of_no_zero lit hnul] at h
  obtain ⟨hle, hsw, _⟩ := find_first_some _ _ _ r h
  rw [drop_takeWhile_length _ r hle, starts_with_takeWhile _ _ _ hnul, List.drop_drop] at hsw
  rw [occurs_at_iff]
  refine ⟨?_, hsw⟩
  have h1 : ((str.drop offset).takeWhile not_nul).length ≤ (str.drop offset).length :=
    (List.takeWhile_sublist _).length_le
  simp only [List.length_drop] at h1
  omega

/-- A literal without zero byte that occurs in the text at `p`, at or after
`offset` and not behind the first zero byte, is found at or before `p`. -/
theorem FixedString.occurs_search_le (fs : FixedString) (str lit : List Nat) (offset p : Nat)
    (hoff : offset ≤ str.length) (hnul : 0 ∉ lit) (hp : offset ≤ p)
    (hwin : p ≤ c_window_end str offset)
    (hocc : occurs_at (fs.case_insensitive lit) lit str p) :
    ∃ r, fs.search ((c_str str).drop offset) lit = some r ∧ offset + r ≤ p := by
  rw [FixedString.search_eq, cstring_c_str, cstring_c_str_drop str offset hoff,
    takeWhile_of_no_zero lit hnul]
  obtain ⟨j, rfl⟩ := Nat.exists_eq_add_of_le hp
  have hj : j ≤ ((str.drop offset).takeWhile not_nul).length := by
    unfold c_window_end at hwin; omega
  rw [occurs_at_iff] at hocc
  have hsw : starts_with (fun a b => fold_case (fs.case_insensitive lit) a
      == fold_case (fs.case_insensitive lit) b)
      (((str.drop offset).takeWhile not_nul).drop j) lit = true := by
    rw [drop_takeWhile_length _ j hj, starts_with_takeWhile _ _ _ hnul, List.drop_drop]
    exact hocc.2
  obtain ⟨i, hi, hij⟩ := find_first_le _ _ _ j hsw
  exact ⟨i, hi, by omega⟩

/-- A search result lies inside the window of the C string. -/
theorem FixedString.search_some_le (fs : FixedString) (str lit : List Nat) (offset r : Nat)
    (hoff : offset ≤ str.length)
    (h : fs.search ((c_str str).drop offset) lit = some r) :
    offset + r ≤ c_window_end str offset := by
  rw [FixedString.search_eq, cstring_c_str_drop str offset hoff] at h
  have := (find_first_some _ _ _ r h).1
  unfold c_window_end
  omega

/-- A successful `exec` of a matcher whose literals contain no zero byte reports
the selected literal (`min_pattern`) standing at the reported start, with that
literal's extent. -/
theorem FixedString.exec_true_occurs (fs : FixedString) (str : List Nat) (offset : Nat)
    (m m' : Match) (hoff : offset ≤ str.length) (hnul : ∀ lit ∈ fs.patterns, 0 ∉ lit)
    (hexec : fs.exec str offset m = (true, m')) :
    offset ≤ m'.start ∧
    (fs.exec_loop ((c_str str).drop offset)).2 ∈ fs.patterns ∧
    occurs_at (fs.case_insensitive (fs.exec_loop ((c_str str).drop offset)).2)
      (fs.exec_loop ((c_str str).drop offset)).2 str m'.start ∧
    m'.end_ = m'.start + (fs.exec_loop ((c_str str).drop offset)).2.length := by
  obtain ⟨r, pre, pat, post, hloop, hpats, hfound, _, _, rfl⟩ :=
    FixedString.exec_true fs str offset m m' hexec
  have hmem : pat ∈ fs.patterns := by rw [hpats]; simp
  rw [hloop]
  exact ⟨by simp, hmem,
    FixedString.search_some_occurs fs str pat offset r hoff (hnul pat hmem) hfound, rfl⟩

/-! ## FixedString: claims -/

/-- C3 (amended). FixedString leftmost-wins: for a matcher whose literals contain
no zero byte, every text and every `offset ≤ length(text)`, a successful `exec`
reports a start at or after `offset` at which a literal occurs under its own case
rule, no literal occurs at a position in `[offset, start)`, and the reported end
is the start plus the length of a literal occurring at the start. -/
theorem fixedstring_leftmost_wins (fs : FixedString) (str : List Nat) (offset : Nat)
    (m m' : Match) (hoff : offset ≤ str.length) (hnul : ∀ lit ∈ fs.patterns, 0 ∉ lit)
    (hexec : fs.exec str offset m = (true, m')) :
    offset ≤ m'.start ∧
    (∃ lit ∈ fs.patterns, occurs_at (fs.case_insensitive lit) lit str m'.start ∧
      m'.end_ = m'.start + lit.length) ∧
    (∀ lit ∈ fs.patterns, ∀ p, offset ≤ p → p < m'.start →
      ¬ occurs_at (fs.case_insensitive lit) lit str p) := by
  obtain ⟨hstart, hsel, hocc, hend⟩ :=
    FixedString.exec_true_occurs fs str offset m m' hoff hnul hexec
  refine ⟨hstart, ⟨_, hsel, hocc, hend⟩, ?_⟩
  obtain ⟨r, pre, pat, post, _, hpats, hfound, hpre, hpost, rfl⟩ :=
    FixedString.exec_true fs str offset m m' hexec
  intro lit hlit p hp hlt hocc'
  simp only at hlt
  have hwin := FixedString.search_some_le fs str pat offset r hoff hfound
  obtain ⟨r', hr', hle⟩ := FixedString.occurs_search_le fs str lit offset p hoff
    (hnul lit hlit) hp (by omega) hocc'
  have hmin : r ≤ r' := by
    rw [hpats] at hlit
    rcases List.mem_append.mp hlit with hq | hq
    · exact le_of_lt (hpre lit hq r' hr')
    · rcases List.mem_cons.mp hq with hq | hq
      · rw [hq, hfound] at hr'
        simp only [Option.some.injEq] at hr'
        omega
      · exact hpost lit hq r' hr'
  omega

/-- C3 at a concrete input: literals `bar` and `Foo` under SMART on
`foo bar Foo` from offset 1. -/
theorem fixedstring_leftmost_wins_witness :
    1 ≤ (Match.mk 4 7).start ∧
    (∃ lit ∈ (FixedString.ctor (ascii "bar\nFoo") CaseSensitivity.SMART).patterns,
      occurs_at ((FixedString.ctor (ascii "bar\nFoo") CaseSensitivity.SMART).case_insensitive lit)
        lit (ascii "foo bar Foo") (Match.mk 4 7).start ∧
      (Match.mk 4 7).end_ = (Match.mk 4 7).start + lit.length) ∧
    (∀ lit ∈ (FixedString.ctor (ascii "bar\nFoo") CaseSensitivity.SMART).patterns,
      ∀ p, 1 ≤ p → p < (Match.mk 4 7).start →
        ¬ occurs_at
          ((FixedString.ctor (ascii "bar\nFoo") CaseSensitivity.SMART).case_insensitive lit)
          lit (ascii "foo bar Foo") p) :=
  fixedstring_leftmost_wins (FixedString.ctor (ascii "bar\nFoo") CaseSensitivity.SMART)
    (ascii "foo bar Foo") 1 (Match.mk 0 0) (Match.mk 4 7) (by decide) (by decide) (by decide)

/-- C3 as stated fails for a literal with a zero byte: the literal `a\0b` is
searched as the C string `a`, so on the text `a` the matcher reports `[0, 3)`
although the literal occurs nowhere in the text. -/
theorem fixedstring_leftmost_wins_counterexample :
    (FixedString.ctor [97, 0, 98] CaseSensitivity.SENSITIVE).exec [97] 0 (Match.mk 0 0)
        = (true, Match.mk 0 3) ∧
    (0 : Nat) ≤ [97].length ∧
    ¬ ∃ lit ∈ (FixedString.ctor [97, 0, 98] CaseSensitivity.SENSITIVE).patterns,
        occurs_at
          ((FixedString.ctor [97, 0, 98] CaseSensitivity.SENSITIVE).case_insensitive lit)
          lit [97] (Match.mk 0 3).start := by
  refine ⟨by decide, by decide, ?_⟩
  rintro ⟨lit, hlit, hocc⟩
  have hl : lit = [97, 0, 98] := by
    have : (FixedString.ctor [97, 0, 98] CaseSensitivity.SENSITIVE).patterns = [[97, 0, 98]] := by
      decide
    rw [this] at hlit
    simpa using hlit
  subst hl
  have := hocc.1
  simp at this

theorem c_window_end_of_no_zero (str : List Nat) (offset : Nat) (hoff : offset ≤ str.length)
    (h : 0 ∉ str.drop offset) : c_window_end str offset = str.length := by
  unfold c_window_end
  rw [takeWhile_of_no_zero _ h, List.length_drop]
  omega

/-- C4 (amended). `FixedString::exec` searches C strings: for every text, every
`offset ≤ length(text)` and every matcher, `exec` signals no-match if and only if
no literal, read up to its first zero byte, occurs in the text between `offset`
and the first zero byte at or after `offset` (the end of the text when there is
none).  When neither the text from `offset` on nor any literal contains a zero
byte this is: no literal occurs at any position `p ≥ offset` with
`p + length(literal) ≤ length(text)`. -/
theorem fixedstring_no_match_iff (fs : FixedString) (str : List Nat) (offset : Nat) (m : Match)
    (hoff : offset ≤ str.length) :
    ((fs.exec str offset m).1 = false ↔
      ∀ lit ∈ fs.patterns, ∀ p, offset ≤ p →
        ¬ occurs_at (fs.case_insensitive lit) (cstring lit)
            (str.take (c_window_end str offset)) p) ∧
    (0 ∉ str.drop offset → (∀ lit ∈ fs.patterns, 0 ∉ lit) →
      ((fs.exec str offset m).1 = false ↔
        ∀ lit ∈ fs.patterns, ∀ p, offset ≤ p → p + lit.length ≤ str.length →
          ¬ occurs_at (fs.case_insensitive lit) lit str p)) := by
  have hgen : (fs.exec str offset m).1 = false ↔
      ∀ lit ∈ fs.patterns, ∀ p, offset ≤ p →
        ¬ occurs_at (fs.case_insensitive lit) (cstring lit)
            (str.take (c_window_end str offset)) p := by
    rw [FixedString.exec_false_iff]
    constructor
    · intro h lit hlit
      exact (FixedString.search_none_iff fs str lit offset hoff).mp (h lit hlit)
    · intro h lit hlit
      exact (FixedString.search_none_iff fs str lit offset hoff).mpr (h lit hlit)
  refine ⟨hgen, fun hstr hlits => ?_⟩
  rw [hgen, c_window_end_of_no_zero str offset hoff hstr, List.take_length]
  constructor
  · intro h lit hlit p hp _ hocc
    apply h lit hlit p hp
    unfold cstring
    rw [takeWhile_of_no_zero lit (hlits lit hlit)]
    exact hocc
  · intro h lit hlit p hp hocc
    unfold cstring at hocc
    rw [takeWhile_of_no_zero lit (hlits lit hlit)] at hocc
    exact h lit hlit p hp hocc.1 hocc

/-- C4 at a concrete input: the literal `b` on the text `a\0b\0b` from offset 2. -/
theorem fixedstring_no_match_iff_witness :
    (((FixedString.ctor [98] CaseSensitivity.SENSITIVE).exec [97, 0, 98, 0, 98] 2
        (Match.mk 0 0)).1 = false ↔
      ∀ lit ∈ (FixedString.ctor [98] CaseSensitivity.SENSITIVE).patterns, ∀ p, 2 ≤ p →
        ¬ occurs_at ((FixedString.ctor [98] CaseSensitivity.SENSITIVE).case_insensitive lit)
            (cstring lit) ([97, 0, 98, 0, 98].take (c_window_end [97, 0, 98, 0, 98] 2)) p) ∧
    (0 ∉ [97, 0, 98, 0, 98].drop 2 →
      (∀ lit ∈ (FixedString.ctor [98] CaseSensitivity.SENSITIVE).patterns, 0 ∉ lit) →
      (((FixedString.ctor [98] CaseSensitivity.SENSITIVE).exec [97, 0, 98, 0, 98] 2
          (Match.mk 0 0)).1 = false ↔
        ∀ lit ∈ (FixedString.ctor [98] CaseSensitivity.SENSITIVE).patterns, ∀ p, 2 ≤ p →
          p + lit.length ≤ [97, 0, 98, 0, 98].length →
          ¬ occurs_at ((FixedString.ctor [98] CaseSensitivity.SENSITIVE).case_insensitive lit)
              lit [97, 0, 98, 0, 98] p)) :=
  fixedstring_no_match_iff (FixedString.ctor [98] CaseSensitivity.SENSITIVE)
    [97, 0, 98, 0, 98] 2 (Match.mk 0 0) (by decide)

/-- C4 as stated fails in both directions.  On the text `a\0b` the literal `b`
occurs at position 2, yet `exec` from offset 0 signals no-match, because `strstr`
stops at the zero byte.  On the text `a` the literal `a\0b` occurs nowhere, yet
`exec` signals a match, because the literal is searched as the C string `a`. -/
theorem fixedstring_no_match_iff_counterexample :
    ¬ (((FixedString.ctor [98] CaseSensitivity.SENSITIVE).exec [97, 0, 98] 0
          (Match.mk 0 0)).1 = false ↔
        ∀ lit ∈ (FixedString.ctor [98] CaseSensitivity.SENSITIVE).patterns, ∀ p, 0 ≤ p →
          p + lit.length ≤ [97, 0, 98].length →
          ¬ occurs_at ((FixedString.ctor [98] CaseSensitivity.SENSITIVE).case_insensitive lit)
              lit [97, 0, 98] p) ∧
    ¬ (((FixedString.ctor [97, 0, 98] CaseSensitivity.SENSITIVE).exec [97] 0
          (Match.mk 0 0)).1 = false ↔
        ∀ lit ∈ (FixedString.ctor [97, 0, 98] CaseSensitivity.SENSITIVE).patterns, ∀ p, 0 ≤ p →
          p + lit.length ≤ [97].length →
          ¬ occurs_at
              ((FixedString.ctor [97, 0, 98] CaseSensitivity.SENSITIVE).case_insensitive lit)
              lit [97] p) := by
  constructor
  · intro h
    have hocc : occurs_at
        ((FixedString.ctor [98] CaseSensitivity.SENSITIVE).case_insensitive [98]) [98]
        [97, 0, 98] 2 := ⟨by decide, by decide⟩
    exact h.mp (by decide) [98] (by decide) 2 (by decide) (by decide) hocc
  · intro h
    have hfalse : ((FixedString.ctor [97, 0, 98] CaseSensitivity.SENSITIVE).exec [97] 0
        (Match.mk 0 0)).1 = false := by
      apply h.mpr
      intro lit hlit p _ hlen _
      have hl : lit = [97, 0, 98] := by
        have hp : (FixedString.ctor [97, 0, 98] CaseSensitivity.SENSITIVE).patterns
            = [[97, 0, 98]] := by decide
        rw [hp] at hlit
        simpa using hlit
      subst hl
      simp at hlen
    exact absurd hfalse (by decide)

/-- C6. The empty fixed-string pattern matches everywhere with zero length: for
every case policy, text and `offset ≤ length(text)`, `exec` succeeds with
`start = end = offset`. -/
theorem fixedstring_empty_pattern (case_folding : CaseSensitivity) (str : List Nat)
    (offset : Nat) (m : Match) (_hoff : offset ≤ str.length) :
    (FixedString.ctor [] case_folding).patterns = [[]] ∧
    (FixedString.ctor [] case_folding).exec str offset m
      = (true, { start := offset, end_ := offset }) := by
  refine ⟨rfl, ?_⟩
  have hs : ∀ sb, (FixedString.ctor [] case_folding).search sb [] = some 0 := by
    intro sb
    rw [FixedString.search_eq, cstring_c_str]
    exact find_first_nil _ _
  have hp : (FixedString.ctor [] case_folding).patterns = [[]] := rfl
  unfold FixedString.exec FixedString.exec_loop
  simp only [hp, List.foldl_cons, List.foldl_nil, FixedString.exec_step, hs, List.length_nil,
    Nat.add_zero]

/-- C6 at a concrete input: offset 3 on the text `abc`, the end of the text. -/
theorem fixedstring_empty_pattern_witness :
    (FixedString.ctor [] CaseSensitivity.SMART).patterns = [[]] ∧
    (FixedString.ctor [] CaseSensitivity.SMART).exec (ascii "abc") 3 (Match.mk 9 9)
      = (true, { start := 3, end_ := 3 }) :=
  fixedstring_empty_pattern CaseSensitivity.SMART (ascii "abc") 3 (Match.mk 9 9) (by decide)

/-- C5 (amended). FixedString smart case is decided per literal: under SMART, for
literals without zero byte, a successful `exec` reports the extent of a literal
that stands at the reported start byte for byte if that literal contains an
uppercase ASCII letter, and up to ASCII case if it contains none; conversely an
occurrence of a literal under that rule, at or after `offset` and not behind a
zero byte of the text, makes `exec` succeed at or before it.  The rule of a
literal depends on that literal alone.  `Foo` on `foo bar Foo` gives `[8, 11)`,
`foo` on the same text gives `[0, 3)`. -/
theorem fixedstring_smart_case :
    (∀ (ps : List (List Nat)) (str : List Nat) (offset : Nat) (m : Match),
      offset ≤ str.length → (∀ lit ∈ ps, 0 ∉ lit) →
      (∀ m', FixedString.exec { patterns := ps, case_folding := CaseSensitivity.SMART }
            str offset m = (true, m') →
        ∃ lit ∈ ps, m'.end_ = m'.start + lit.length ∧
          ((∃ c ∈ lit, 65 ≤ c ∧ c ≤ 90) →
            (str.drop m'.start).take lit.length = lit) ∧
          ((∀ c ∈ lit, ¬ (65 ≤ c ∧ c ≤ 90)) →
            ((str.drop m'.start).take lit.length).map tolower = lit.map tolower)) ∧
      (∀ lit ∈ ps, ∀ p, offset ≤ p → p ≤ c_window_end str offset →
        occurs_at (decide (∀ c ∈ lit, ¬ (65 ≤ c ∧ c ≤ 90))) lit str p →
        ∃ m', FixedString.exec { patterns := ps, case_folding := CaseSensitivity.SMART }
            str offset m = (true, m') ∧ m'.start ≤ p)) ∧
    (∀ m, (FixedString.ctor (ascii "Foo") CaseSensitivity.SMART).exec (ascii "foo bar Foo") 0 m
      = (true, { start := 8, end_ := 11 })) ∧
    (∀ m, (FixedString.ctor (ascii "foo") CaseSensitivity.SMART).exec (ascii "foo bar Foo") 0 m
      = (true, { start := 0, end_ := 3 })) := by
  have hrule : ∀ (ps : List (List Nat)) (lit : List Nat),
      FixedString.case_insensitive { patterns := ps, case_folding := CaseSensitivity.SMART } lit
        = decide (∀ c ∈ lit, ¬ (65 ≤ c ∧ c ≤ 90)) := by
    intro ps lit
    simp only [FixedString.case_insensitive, FixedString.has_uppercase_literals]
    rw [Bool.eq_iff_iff]
    simp [isupper]
  refine ⟨fun ps str offset m hoff hnul => ⟨fun m' hexec => ?_, fun lit hlit p hp hwin hocc => ?_⟩,
    fun m => rfl, fun m => rfl⟩
  · obtain ⟨_, hlit, hocc, hend⟩ := FixedString.exec_true_occurs _ str offset m m' hoff
      hnul hexec
    generalize FixedString.exec_loop { patterns := ps, case_folding := CaseSensitivity.SMART }
      ((c_str str).drop offset) = sel at hlit hocc hend
    obtain ⟨_, lit⟩ := sel
    refine ⟨lit, hlit, hend, fun hup => ?_, fun hlow => ?_⟩
    · have hci : FixedString.case_insensitive
          { patterns := ps, case_folding := CaseSensitivity.SMART } lit = false := by
        rw [hrule]; simpa using hup
      rw [hci] at hocc
      have hid : fold_case false = id := by funext c; simp [fold_case]
      have := hocc.2
      rw [hid, List.map_id, List.map_id] at this
      exact this
    · have hci : FixedString.case_insensitive
          { patterns := ps, case_folding := CaseSensitivity.SMART } lit = true := by
        rw [hrule]; simpa using hlow
      rw [hci] at hocc
      have := hocc.2
      simp only [fold_case, if_true] at this
      exact this
  · rw [← hrule ps lit] at hocc
    obtain ⟨r, hr, hle⟩ := FixedString.occurs_search_le
      { patterns := ps, case_folding := CaseSensitivity.SMART } str lit offset p hoff
      (hnul lit hlit) hp hwin hocc
    cases hex : FixedString.exec { patterns := ps, case_folding := CaseSensitivity.SMART }
        str offset m with
    | mk ok m' =>
      cases ok with
      | false =>
        have hfalse : (FixedString.exec { patterns := ps, case_folding := CaseSensitivity.SMART }
            str offset m).1 = false := by rw [hex]
        rw [FixedString.exec_false_iff] at hfalse
        rw [hfalse lit hlit] at hr
        cases hr
      | true =>
        refine ⟨m', rfl, ?_⟩
        obtain ⟨r0, pre, pat, post, _, hpats, hfound, hpre, hpost, rfl⟩ :=
          FixedString.exec_true _ str offset m m' hex
        have hmin : r0 ≤ r := by
          have hlit' : lit ∈ pre ++ pat :: post := hpats ▸ hlit
          rcases List.mem_append.mp hlit' with hq | hq
          · exact le_of_lt (hpre lit hq r hr)
          · rcases List.mem_cons.mp hq with hq | hq
            · rw [hq, hfound] at hr
              simp only [Option.some.injEq] at hr
              omega
            · exact hpost lit hq r hr
        simp only
        omega

/-- C5 at a concrete input: literals `Foo` and `bar` under SMART on `foo BAR Foo`;
`bar` is found ignoring case at `[4, 7)`, `Foo` only at position 8. -/
theorem fixedstring_smart_case_witness :
    ∃ lit ∈ [ascii "Foo", ascii "bar"],
      (Match.mk 4 7).end_ = (Match.mk 4 7).start + lit.length ∧
      ((∃ c ∈ lit, 65 ≤ c ∧ c ≤ 90) →
        ((ascii "foo BAR Foo").drop (Match.mk 4 7).start).take lit.length = lit) ∧
      ((∀ c ∈ lit, ¬ (65 ≤ c ∧ c ≤ 90)) →
        (((ascii "foo BAR Foo").drop (Match.mk 4 7).start).take lit.length).map tolower
          = lit.map tolower) :=
  (fixedstring_smart_case.1 [ascii "Foo", ascii "bar"] (ascii "foo BAR Foo") 0 (Match.mk 0 0)
    (by decide) (by decide)).1 (Match.mk 4 7) (by decide)

/-- C5 as stated fails for a literal with a zero byte: under SMART the literal
`A\0` contains an uppercase letter and is searched case-sensitively as the C
string `A`, so on the text `Ab` the matcher reports `[0, 2)` although the bytes
there are not the literal. -/
theorem fixedstring_smart_case_counterexample :
    (FixedString.ctor [65, 0] CaseSensitivity.SMART).exec [65, 98] 0 (Match.mk 0 0)
        = (true, Match.mk 0 2) ∧
    (∃ c ∈ [65, 0], 65 ≤ c ∧ c ≤ 90) ∧
    ¬ (([65, 98].drop (Match.mk 0 2).start).take [65, 0].length = [65, 0]) := by
  decide

/-! ## PatternList and PosixRegex: lemmas -/

theorem PatternList.foldl_add_pattern (members : List Regengine) :
    ∀ (pl : PatternList),
      (members.foldl PatternList.add_pattern pl).patterns = pl.patterns ++ members := by
  induction members with
  | nil => intro pl; simp
  | cons r rest ih => intro pl; simp [ih, PatternList.add_pattern]

/-- A successful `PatternList::exec` hands on the match of one of its members. -/
theorem PatternList.exec_loop_true (str : List Nat) (offset : Nat) (m m' : Match) :
    ∀ (ps : List Regengine) (m_copy : Match),
      PatternList.exec_loop str offset m ps m_copy = (true, m') →
      ∃ r ∈ ps, ∃ mc, r.exec str offset mc = (true, m')
  | [], _, h => by simp [PatternList.exec_loop] at h
  | r :: rest, m_copy, h => by
    unfold PatternList.exec_loop at h
    cases hr : r.exec str offset m_copy with
    | mk ok m1 =>
      rw [hr] at h
      cases ok with
      | true =>
        simp only [Prod.mk.injEq, true_and] at h
        exact ⟨r, by simp, m_copy, by rw [hr, ← h]⟩
      | false =>
        obtain ⟨r', hr', hex⟩ := PatternList.exec_loop_true str offset m m' rest m1 h
        exact ⟨r', List.mem_cons_of_mem _ hr', hex⟩

/-- When the members leave the record alone on failure, the loop of
`PatternList::exec` returns the match of the first member that succeeds. -/
theorem PatternList.exec_loop_find (str : List Nat) (offset : Nat) (m : Match) :
    ∀ (ps : List Regengine),
      (∀ r ∈ ps, (r.exec str offset m).1 = false → (r.exec str offset m).2 = m) →
      PatternList.exec_loop str offset m ps m
        = (match ps.find? (fun r => (r.exec str offset m).1) with
          | some r => (true, (r.exec str offset m).2)
          | none => (false, m))
  | [], _ => by simp [PatternList.exec_loop]
  | r :: rest, hframe => by
    unfold PatternList.exec_loop
    cases hr : r.exec str offset m with
    | mk ok m1 =>
      cases ok with
      | true => simp [List.find?, hr]
      | false =>
        have hm1 : m1 = m := by
          have := hframe r (by simp) (by rw [hr])
          rw [hr] at this
          exact this
        subst hm1
        simp only [List.find?, hr]
        exact PatternList.exec_loop_find str offset m1 rest
          (fun r' hr' => hframe r' (List.mem_cons_of_mem _ hr'))

/-- What `PosixRegex::exec` returns in terms of the engine's result. -/
theorem PosixRegex.exec_success {regex_t : Type}
    (regexec : regex_t → List Nat → Nat → Int × Nat × Nat) (re : PosixRegex regex_t)
    (str : List Nat) (offset : Nat) (m m' : Match)
    (h : re.exec regexec str offset m = (true, m')) :
    ∃ so eo, regexec re.regex ((c_str str).drop offset) (if offset = 0 then 0 else REG_NOTBOL)
        = (0, so, eo) ∧ m' = { start := offset + so, end_ := offset + eo } := by
  unfold PosixRegex.exec at h
  simp only at h
  generalize regexec re.regex ((c_str str).drop offset) (if offset = 0 then 0 else REG_NOTBOL)
    = res at h
  obtain ⟨ret, so, eo⟩ := res
  by_cases hret : ret = 0
  · subst hret
    simp only [ne_eq, not_true_eq_false, if_false, Prod.mk.injEq, true_and] at h
    exact ⟨so, eo, rfl, h.symm⟩
  · simp [hret] at h

/-- The reference engine for `^literal` reports offsets inside its string. -/
theorem regexec_anchored_range (regex : List Nat) (str : List Nat) (offset flags so eo : Nat)
    (hoff : offset ≤ str.length)
    (h : regexec_anchored regex ((c_str str).drop offset) flags = (0, so, eo)) :
    so ≤ eo ∧ eo ≤ str.length - offset := by
  unfold regexec_anchored at h
  split at h
  · simp at h
  · split at h
    · rename_i hsw
      simp only [Prod.mk.injEq, true_and] at h
      obtain ⟨rfl, rfl⟩ := h
      have hlen := starts_with_length _ _ _ hsw
      rw [cstring_c_str_drop str offset hoff] at hlen
      have h1 : ((str.drop offset).takeWhile not_nul).length ≤ (str.drop offset).length :=
        (List.takeWhile_sublist _).length_le
      simp only [List.length_drop] at h1
      omega
    · simp at h

/-- `FixedString::exec` leaves the record alone when it reports no match. -/
theorem FixedString.exec_fixed_frame (fs : FixedString) (str : List Nat) (offset : Nat) (m : Match)
    (h : (fs.exec str offset m).1 = false) : (fs.exec str offset m).2 = m := by
  unfold FixedString.exec at h ⊢
  simp only at h ⊢
  generalize fs.exec_loop ((c_str str).drop offset) = acc at h ⊢
  obtain ⟨a1, a2⟩ := acc
  cases a1 with
  | none => rfl
  | some r => simp at h

/-- `PosixRegex::exec` leaves the record alone when it reports no match. -/
theorem PosixRegex.exec_posix_frame {regex_t : Type}
    (regexec : regex_t → List Nat → Nat → Int × Nat × Nat) (re : PosixRegex regex_t)
    (str : List Nat) (offset : Nat) (m : Match)
    (h : (re.exec regexec str offset m).1 = false) : (re.exec regexec str offset m).2 = m := by
  unfold PosixRegex.exec at h ⊢
  simp only at h ⊢
  generalize regexec re.regex ((c_str str).drop offset) (if offset = 0 then 0 else REG_NOTBOL)
    = res at h ⊢
  obtain ⟨ret, so, eo⟩ := res
  by_cases hret : ret = 0
  · simp [hret] at h
  · simp [hret]

/-- `PatternList::exec` leaves the record alone when it reports no match,
whatever its members do. -/
theorem PatternList.exec_loop_frame (str : List Nat) (offset : Nat) (m : Match) :
    ∀ (ps : List Regengine) (m_copy : Match),
      (PatternList.exec_loop str offset m ps m_copy).1 = false →
      (PatternList.exec_loop str offset m ps m_copy).2 = m
  | [], _, _ => rfl
  | r :: rest, m_copy, h => by
    unfold PatternList.exec_loop at h ⊢
    cases hr : r.exec str offset m_copy with
    | mk ok m1 =>
      rw [hr] at h
      cases ok with
      | true => simp at h
      | false => exact PatternList.exec_loop_frame str offset m rest m1 h

/-! ## PatternList and PosixRegex: claims -/

/-- C2. PatternList first-in-list wins: for members added in the order `members`
(each, like every matcher of this program, leaving the record untouched when it
reports no match), `exec` returns exactly the match of the first member whose own
`exec(text, offset)` succeeds, whatever later members would report, and no match
when none succeeds.  The list `[FixedString "zzz", FixedString "abc"]` on
`abc zzz` at offset 0 returns `[4, 7)` although `abc` alone matches at `[0, 3)`. -/
theorem patternlist_first_in_list_wins (members : List Regengine) (str : List Nat)
    (offset : Nat) (m : Match)
    (hframe : ∀ r ∈ members, (r.exec str offset m).1 = false → (r.exec str offset m).2 = m) :
    (members.foldl PatternList.add_pattern { patterns := [] }).exec str offset m
        = (match members.find? (fun r => (r.exec str offset m).1) with
          | some r => (true, (r.exec str offset m).2)
          | none => (false, m)) ∧
    (∀ (cf1 cf2 : CaseSensitivity) (m0 : Match),
      (PatternList.add_pattern
          (PatternList.add_pattern { patterns := [] }
            (FixedString.ctor (ascii "zzz") cf1).toRegengine)
          (FixedString.ctor (ascii "abc") cf2).toRegengine).exec (ascii "abc zzz") 0 m0
        = (true, { start := 4, end_ := 7 }) ∧
      (FixedString.ctor (ascii "abc") cf2).exec (ascii "abc zzz") 0 m0
        = (true, { start := 0, end_ := 3 })) := by
  constructor
  · unfold PatternList.exec
    simp only [PatternList.foldl_add_pattern, List.nil_append]
    exact PatternList.exec_loop_find str offset m members hframe
  · intro cf1 cf2 m0
    cases cf1 <;> cases cf2 <;> exact ⟨rfl, rfl⟩

/-- C2 at a concrete input: a member that fails, then `zzz`, then `abc`. -/
theorem patternlist_first_in_list_wins_witness :
    ([(FixedString.ctor (ascii "q") CaseSensitivity.SMART).toRegengine,
      (FixedString.ctor (ascii "zzz") CaseSensitivity.SMART).toRegengine,
      (FixedString.ctor (ascii "abc") CaseSensitivity.SMART).toRegengine].foldl
        PatternList.add_pattern { patterns := [] }).exec (ascii "abc zzz") 0 (Match.mk 0 0)
        = (match [(FixedString.ctor (ascii "q") CaseSensitivity.SMART).toRegengine,
            (FixedString.ctor (ascii "zzz") CaseSensitivity.SMART).toRegengine,
            (FixedString.ctor (ascii "abc") CaseSensitivity.SMART).toRegengine].find?
              (fun r => (r.exec (ascii "abc zzz") 0 (Match.mk 0 0)).1) with
          | some r => (true, (r.exec (ascii "abc zzz") 0 (Match.mk 0 0)).2)
          | none => (false, Match.mk 0 0)) ∧
    (∀ (cf1 cf2 : CaseSensitivity) (m0 : Match),
      (PatternList.add_pattern
          (PatternList.add_pattern { patterns := [] }
            (FixedString.ctor (ascii "zzz") cf1).toRegengine)
          (FixedString.ctor (ascii "abc") cf2).toRegengine).exec (ascii "abc zzz") 0 m0
        = (true, { start := 4, end_ := 7 }) ∧
      (FixedString.ctor (ascii "abc") cf2).exec (ascii "abc zzz") 0 m0
        = (true, { start := 0, end_ := 3 })) :=
  patternlist_first_in_list_wins
    [(FixedString.ctor (ascii "q") CaseSensitivity.SMART).toRegengine,
     (FixedString.ctor (ascii "zzz") CaseSensitivity.SMART).toRegengine,
     (FixedString.ctor (ascii "abc") CaseSensitivity.SMART).toRegengine]
    (ascii "abc zzz") 0 (Match.mk 0 0) (by decide)

/-- C7. POSIX anchor suppression: for every compiled regex, text and
`offset ≤ length(text)`, `exec` runs the engine on the suffix of the text that
starts at `offset` (with its terminator), passing `REG_NOTBOL` if `offset > 0`
and no flag if `offset = 0`, and reports the engine's offsets shifted by `offset`.
With the engine behaviour of `^abc`: on `xabc` from offset 1 there is no match,
although the suffix `abc` matches when the anchor is not suppressed; on `abc`
from offset 0 the match is `[0, 3)`. -/
theorem posix_anchor_suppression {regex_t : Type}
    (regexec : regex_t → List Nat → Nat → Int × Nat × Nat) (re : PosixRegex regex_t)
    (str : List Nat) (offset : Nat) (m : Match) (hoff : offset ≤ str.length) :
    re.exec regexec str offset m
        = (match regexec re.regex (str.drop offset ++ [0])
              (if 0 < offset then REG_NOTBOL else 0) with
          | (ret, rm_so, rm_eo) =>
            if ret = 0 then (true, { start := offset + rm_so, end_ := offset + rm_eo })
            else (false, m)) ∧
    REG_NOTBOL ≠ 0 ∧
    (∀ m0, PosixRegex.exec regexec_anchored { regex := ascii "abc" } (ascii "xabc") 1 m0
      = (false, m0)) ∧
    regexec_anchored (ascii "abc") ((ascii "xabc").drop 1 ++ [0]) 0 = (0, 0, 3) ∧
    (∀ m0, PosixRegex.exec regexec_anchored { regex := ascii "abc" } (ascii "abc") 0 m0
      = (true, { start := 0, end_ := 3 })) := by
  refine ⟨?_, by decide, fun m0 => rfl, by decide, fun m0 => rfl⟩
  unfold PosixRegex.exec c_str
  rw [List.drop_append_of_le_length hoff]
  by_cases h0 : offset = 0
  · subst h0
    simp only [Nat.lt_irrefl, if_false, if_true]
    split <;> simp_all
  · have hpos : 0 < offset := Nat.pos_of_ne_zero h0
    simp only [h0, hpos, if_false, if_true]
    split <;> simp_all

/-- C7 at a concrete input: the regex `^abc` on `xabc` from offset 1. -/
theorem posix_anchor_suppression_witness :
    PosixRegex.exec regexec_anchored { regex := ascii "abc" } (ascii "xabc") 1 (Match.mk 0 0)
        = (match regexec_anchored (ascii "abc") ((ascii "xabc").drop 1 ++ [0])
              (if 0 < 1 then REG_NOTBOL else 0) with
          | (ret, rm_so, rm_eo) =>
            if ret = 0 then (true, { start := 1 + rm_so, end_ := 1 + rm_eo })
            else (false, Match.mk 0 0)) ∧
    REG_NOTBOL ≠ 0 ∧
    (∀ m0, PosixRegex.exec regexec_anchored { regex := ascii "abc" } (ascii "xabc") 1 m0
      = (false, m0)) ∧
    regexec_anchored (ascii "abc") ((ascii "xabc").drop 1 ++ [0]) 0 = (0, 0, 3) ∧
    (∀ m0, PosixRegex.exec regexec_anchored { regex := ascii "abc" } (ascii "abc") 0 m0
      = (true, { start := 0, end_ := 3 })) :=
  posix_anchor_suppression regexec_anchored { regex := ascii "abc" } (ascii "xabc") 1
    (Match.mk 0 0) (by decide)

/-- Every matcher of the family `Variant` reports a range inside the text. -/
theorem Variant.valid_range {regex_t : Type}
    (regexec : regex_t → List Nat → Nat → Int × Nat × Nat) (e : Regengine)
    (he : Variant regexec e) :
    ∀ (str : List Nat) (offset : Nat) (m m' : Match), offset ≤ str.length →
      e.exec str offset m = (true, m') →
      offset ≤ m'.start ∧ m'.start ≤ m'.end_ ∧ m'.end_ ≤ str.length := by
  induction he with
  | fixed fs hnul =>
    intro str offset m m' hoff hexec
    obtain ⟨hstart, _, hocc, hend⟩ :=
      FixedString.exec_true_occurs fs str offset m m' hoff hnul hexec
    have := hocc.1
    omega
  | posix re hengine =>
    intro str offset m m' hoff hexec
    obtain ⟨so, eo, hre, rfl⟩ := PosixRegex.exec_success regexec re str offset m m' hexec
    have := hengine str offset _ so eo hoff hre
    simp only
    omega
  | list pl _ ih =>
    intro str offset m m' hoff hexec
    obtain ⟨r, hr, mc, hrexec⟩ :=
      PatternList.exec_loop_true str offset m m' pl.patterns m hexec
    exact ih r hr str offset mc m' hoff hrexec

/-- C8 (amended). Reported matches are valid ranges of the original text: for a
`FixedString` whose literals contain no zero byte, a `PosixRegex` over an engine
that returns `rm_so ≤ rm_eo ≤ length(text) - offset`, and any `PatternList` of
such matchers, every text and every `offset ≤ length(text)`, a successful `exec`
yields `offset ≤ start ≤ end ≤ length(text)`; for such a `FixedString` the bytes
`text[start, end)` equal the selected literal (`min_pattern`), byte for byte when
that literal is searched case-sensitively and up to ASCII case otherwise;
for every `PosixRegex` the range is the engine's `[rm_so, rm_eo)` shifted by
`offset`. -/
theorem exec_valid_range {regex_t : Type}
    (regexec : regex_t → List Nat → Nat → Int × Nat × Nat) :
    (∀ e, Variant regexec e →
      ∀ (str : List Nat) (offset : Nat) (m m' : Match), offset ≤ str.length →
        e.exec str offset m = (true, m') →
        offset ≤ m'.start ∧ m'.start ≤ m'.end_ ∧ m'.end_ ≤ str.length) ∧
    (∀ (fs : FixedString) (str : List Nat) (offset : Nat) (m m' : Match),
      offset ≤ str.length → (∀ lit ∈ fs.patterns, 0 ∉ lit) →
      fs.exec str offset m = (true, m') →
      ∃ lit, lit = (fs.exec_loop ((c_str str).drop offset)).2 ∧ lit ∈ fs.patterns ∧
        m'.end_ = m'.start + lit.length ∧
        ((str.drop m'.start).take (m'.end_ - m'.start)).map
            (fold_case (fs.case_insensitive lit))
          = lit.map (fold_case (fs.case_insensitive lit))) ∧
    (∀ (re : PosixRegex regex_t) (str : List Nat) (offset : Nat) (m m' : Match),
      re.exec regexec str offset m = (true, m') →
      ∃ flags rm_so rm_eo,
        regexec re.regex ((c_str str).drop offset) flags = (0, rm_so, rm_eo) ∧
        m'.start = offset + rm_so ∧ m'.end_ = offset + rm_eo) := by
  refine ⟨fun e he => Variant.valid_range regexec e he, ?_, ?_⟩
  · intro fs str offset m m' hoff hnul hexec
    obtain ⟨_, hlit, hocc, hend⟩ :=
      FixedString.exec_true_occurs fs str offset m m' hoff hnul hexec
    refine ⟨_, rfl, hlit, hend, ?_⟩
    have hlen : m'.end_ - m'.start
        = (fs.exec_loop ((c_str str).drop offset)).2.length := by omega
    rw [hlen]
    exact hocc.2
  · intro re str offset m m' hexec
    obtain ⟨so, eo, hre, rfl⟩ := PosixRegex.exec_success regexec re str offset m m' hexec
    exact ⟨_, so, eo, hre, rfl, rfl⟩

/-- C8 at a concrete input: the list of the regex `^abc` and the nested list of
the literal `zzz`, on `abc zzz` from offset 1, reports `[4, 7)`. -/
theorem exec_valid_range_witness :
    1 ≤ (Match.mk 4 7).start ∧ (Match.mk 4 7).start ≤ (Match.mk 4 7).end_ ∧
      (Match.mk 4 7).end_ ≤ (ascii "abc zzz").length :=
  (exec_valid_range regexec_anchored).1
    (PatternList.toRegengine { patterns :=
      [PosixRegex.toRegengine regexec_anchored { regex := ascii "abc" },
       PatternList.toRegengine { patterns :=
        [(FixedString.ctor (ascii "zzz") CaseSensitivity.SMART).toRegengine] }] })
    (Variant.list _ (fun r hr => by
      simp only [List.mem_cons, List.mem_singleton, List.not_mem_nil, or_false] at hr
      rcases hr with rfl | rfl
      · exact Variant.posix _ (fun str offset flags so eo hoff h =>
          regexec_anchored_range _ str offset flags so eo hoff h)
      · exact Variant.list _ (fun r' hr' => by
          simp only [List.mem_singleton] at hr'
          subst hr'
          exact Variant.fixed _ (by decide))))
    (ascii "abc zzz") 1 (Match.mk 0 0) (Match.mk 4 7) (by decide) (by decide)

/-- C8 as stated fails for a literal with a zero byte: the literal `a\0bcd` is
searched as the C string `a`, so on the text `xa` the matcher reports `[1, 6)`,
which ends beyond the text of length 2. -/
theorem exec_valid_range_counterexample :
    (FixedString.ctor [97, 0, 98, 99, 100] CaseSensitivity.INSENSITIVE).toRegengine.exec
        [120, 97] 0 (Match.mk 0 0) = (true, Match.mk 1 6) ∧
    (0 : Nat) ≤ [120, 97].length ∧
    ¬ ((Match.mk 1 6).end_ ≤ [120, 97].length) := by
  decide

/-! ## Smart-case scanner: lemmas and claims -/

theorem escaped_from_cons (e : Bool) (c : Nat) (rest : List Nat) :
    ∀ i, escaped_from e (c :: rest) (i + 1) = escaped_from (!e && c == 92) rest i
  | 0 => by simp [escaped_from]
  | i + 1 => by
    rw [escaped_from, escaped_from_cons e c rest i]
    simp [escaped_from]

/-- The scanner loop finds an uppercase letter exactly when one stands at an
unescaped position of the rest of the pattern. -/
theorem regex_loop_iff :
    ∀ (pattern : List Nat) (e : Bool),
      regex_has_uppercase_literals_loop e pattern = true ↔
        ∃ i, i < pattern.length ∧ escaped_from e pattern i = false ∧
          isupper (pattern.getD i 0) = true
  | [], e => by simp [regex_has_uppercase_literals_loop]
  | c :: rest, true => by
    rw [regex_has_uppercase_literals_loop, regex_loop_iff rest false]
    constructor
    · rintro ⟨i, hi, hesc, hup⟩
      refine ⟨i + 1, by simpa using hi, ?_, by simpa using hup⟩
      rw [escaped_from_cons]; simpa using hesc
    · rintro ⟨i, hi, hesc, hup⟩
      cases i with
      | zero => simp [escaped_from] at hesc
      | succ i =>
        rw [escaped_from_cons] at hesc
        exact ⟨i, by simpa using hi, by simpa using hesc, by simpa using hup⟩
  | c :: rest, false => by
    rw [regex_has_uppercase_literals_loop]
    by_cases hup : isupper c = true
    · simp only [hup, if_true, true_iff]
      exact ⟨0, by simp, rfl, by simpa using hup⟩
    · have hnext : ∀ i, escaped_from false (c :: rest) (i + 1)
          = escaped_from (c == 92) rest i := by
        intro i; rw [escaped_from_cons]; simp
      by_cases hc : c = 92
      · have hb : (c == 92) = true := by simp [hc]
        rw [if_neg hup, if_pos hc, regex_loop_iff rest true]
        constructor
        · rintro ⟨i, hi, hesc, hu⟩
          refine ⟨i + 1, by simpa using hi, ?_, by simpa using hu⟩
          rw [hnext, hb]; exact hesc
        · rintro ⟨i, hi, hesc, hu⟩
          cases i with
          | zero => simp only [List.getD_cons_zero] at hu; exact absurd hu hup
          | succ i =>
            rw [hnext, hb] at hesc
            exact ⟨i, by simpa using hi, hesc, by simpa using hu⟩
      · have hb : (c == 92) = false := by simp [hc]
        rw [if_neg hup, if_neg hc, regex_loop_iff rest false]
        constructor
        · rintro ⟨i, hi, hesc, hu⟩
          refine ⟨i + 1, by simpa using hi, ?_, by simpa using hu⟩
          rw [hnext, hb]; exact hesc
        · rintro ⟨i, hi, hesc, hu⟩
          cases i with
          | zero => simp only [List.getD_cons_zero] at hu; exact absurd hu hup
          | succ i =>
            rw [hnext, hb] at hesc
            exact ⟨i, by simpa using hi, hesc, by simpa using hu⟩

/-- C12. Regex smart-case scanner: for every pattern, `regex_has_uppercase_literals`
returns true if and only if an uppercase ASCII letter stands at an unescaped
position, the positions being classified left to right (position 0 is unescaped;
a position is escaped exactly when the position before it is an unescaped
backslash, so an escaped character never starts a new escape).  The pattern
`\S` gives false, `\\S` gives true, `a\\` and `a\` give false. -/
theorem regex_scanner_unescaped_uppercase (pattern : List Nat) :
    (regex_has_uppercase_literals pattern = true ↔
      ∃ i, i < pattern.length ∧ escaped_at pattern i = false ∧
        65 ≤ pattern.getD i 0 ∧ pattern.getD i 0 ≤ 90) ∧
    (∀ i, escaped_at pattern (i + 1) = true ↔
      (escaped_at pattern i = false ∧ pattern.getD i 0 = 92)) ∧
    escaped_at pattern 0 = false ∧
    regex_has_uppercase_literals [92, 83] = false ∧
    regex_has_uppercase_literals [92, 92, 83] = true ∧
    regex_has_uppercase_literals [97, 92, 92] = false ∧
    regex_has_uppercase_literals [97, 92] = false := by
  refine ⟨?_, fun i => ?_, rfl, by decide, by decide, by decide, by decide⟩
  · unfold regex_has_uppercase_literals escaped_at
    rw [regex_loop_iff]
    constructor
    · rintro ⟨i, hi, hesc, hup⟩
      simp only [isupper, Bool.and_eq_true, decide_eq_true_eq] at hup
      exact ⟨i, hi, hesc, hup.1, hup.2⟩
    · rintro ⟨i, hi, hesc, h1, h2⟩
      refine ⟨i, hi, hesc, ?_⟩
      simp only [isupper, Bool.and_eq_true, decide_eq_true_eq]
      exact ⟨h1, h2⟩
  · unfold escaped_at
    simp [escaped_from]

theorem regex_loop_no_backslash :
    ∀ (pattern : List Nat), 92 ∉ pattern →
      regex_has_uppercase_literals_loop false pattern = pattern.any isupper
  | [], _ => rfl
  | c :: rest, h => by
    have hc : c ≠ 92 := fun hc => h (by simp [hc])
    have hrest : 92 ∉ rest := fun hin => h (List.mem_cons_of_mem _ hin)
    rw [regex_has_uppercase_literals_loop, if_neg hc, regex_loop_no_backslash rest hrest]
    cases hup : isupper c <;> simp [hup]

/-- C14 (amended). Two smart-case tests: `FixedString::has_uppercase_literals`
reports an uppercase ASCII letter anywhere in the literal and gives the
backslash no role; whenever `regex_has_uppercase_literals` answers true it
answers true as well, and the two agree on every pattern without a backslash.
The literal `\S` has an uppercase letter for the FixedString matcher, so under
SMART it is searched case-sensitively: it is found in `\S` and not in `\s`. -/
theorem fixedstring_uppercase_test (pattern : List Nat) :
    (FixedString.has_uppercase_literals pattern = true ↔
      ∃ c ∈ pattern, 65 ≤ c ∧ c ≤ 90) ∧
    (regex_has_uppercase_literals pattern = true →
      FixedString.has_uppercase_literals pattern = true) ∧
    (92 ∉ pattern →
      FixedString.has_uppercase_literals pattern = regex_has_uppercase_literals pattern) ∧
    (FixedString.ctor [92, 83] CaseSensitivity.SMART).case_insensitive [92, 83] = false ∧
    (∀ m, (FixedString.ctor [92, 83] CaseSensitivity.SMART).exec [92, 83] 0 m
      = (true, { start := 0, end_ := 2 })) ∧
    (∀ m, (FixedString.ctor [92, 83] CaseSensitivity.SMART).exec [92, 115] 0 m = (false, m)) := by
  have hany : FixedString.has_uppercase_literals pattern = true ↔
      ∃ c ∈ pattern, 65 ≤ c ∧ c ≤ 90 := by
    simp [FixedString.has_uppercase_literals, isupper]
  refine ⟨hany, ?_, ?_, by decide, fun m => rfl, fun m => rfl⟩
  · intro h
    rw [hany]
    unfold regex_has_uppercase_literals at h
    obtain ⟨i, hi, _, hup⟩ := (regex_loop_iff pattern false).mp h
    refine ⟨pattern.getD i 0, ?_, ?_⟩
    · rw [List.getD_eq_getElem _ _ hi]
      exact List.getElem_mem hi
    · simpa [isupper] using hup
  · intro h
    unfold regex_has_uppercase_literals FixedString.has_uppercase_literals
    exact (regex_loop_no_backslash pattern h).symm

/-- C14 at a concrete input: the pattern `Ab`, without backslash. -/
theorem fixedstring_uppercase_test_witness :
    FixedString.has_uppercase_literals (ascii "Ab") = regex_has_uppercase_literals (ascii "Ab") :=
  (fixedstring_uppercase_test (ascii "Ab")).2.2.1 (by decide)

/-- C14 as stated fails on the pattern `\S`: the FixedString test answers true,
the regex test answers false, and the FixedString matcher under SMART does not
find `\S` in the text `\s`. -/
theorem fixedstring_uppercase_test_counterexample :
    FixedString.has_uppercase_literals [92, 83] = true ∧
    regex_has_uppercase_literals [92, 83] = false ∧
    (FixedString.ctor [92, 83] CaseSensitivity.SMART).exec [92, 115] 0 (Match.mk 0 0)
      = (false, Match.mk 0 0) := by
  decide

/-! ## FixedString constructor: lemmas and claims -/

theorem not_newline_ten : not_newline 10 = false := rfl

theorem not_newline_of_ne {c : Nat} (hc : c ≠ 10) : not_newline c = true := by
  simp [not_newline, hc]

/-- One `getline` takes the first line off the input. -/
theorem lines_of_getline :
    ∀ (input line rest : List Nat), getline input = some (line, rest) →
      lines_of input = line :: lines_of rest
  | [], _, _, h => by simp [getline] at h
  | c :: t, line, rest, h => by
    simp only [getline, Option.some.injEq, Prod.mk.injEq] at h
    obtain ⟨rfl, rfl⟩ := h
    by_cases hc : c = 10
    · subst hc
      rw [List.takeWhile_cons_of_neg (by simp [not_newline_ten]),
        List.dropWhile_cons_of_neg (by simp [not_newline_ten])]
      simp [lines_of]
    · rw [List.takeWhile_cons_of_pos (not_newline_of_ne hc),
        List.dropWhile_cons_of_pos (not_newline_of_ne hc)]
      cases t with
      | nil => simp [lines_of, hc]
      | cons d t' =>
        have ih := lines_of_getline (d :: t') _ _ rfl
        rw [lines_of, if_neg hc, ih]

/-- With enough fuel the loop of the constructor appends the lines of the input. -/
theorem getline_loop_lines :
    ∀ (fuel : Nat) (input : List Nat) (patterns : List (List Nat)), input.length < fuel →
      getline_loop fuel input patterns = patterns ++ lines_of input
  | 0, _, _, h => by omega
  | fuel + 1, input, patterns, h => by
    unfold getline_loop
    cases hg : getline input with
    | none =>
      cases input with
      | nil => simp [lines_of]
      | cons c t => simp [getline] at hg
    | some lr =>
      obtain ⟨line, rest⟩ := lr
      have hlt := getline_rest_length input line rest hg
      simp only
      rw [getline_loop_lines fuel rest (patterns ++ [line]) (by omega),
        lines_of_getline input line rest hg]
      simp

theorem split_newline_ne_nil : ∀ (pattern : List Nat), split_newline pattern ≠ []
  | [] => by simp [split_newline]
  | c :: rest => by
    unfold split_newline
    split
    · simp
    · split <;> simp

/-- A pattern that ends in `\n` has the lines of the pattern before that `\n`. -/
theorem lines_of_append_newline :
    ∀ (pattern : List Nat), lines_of (pattern ++ [10]) = split_newline pattern
  | [] => by simp [lines_of, split_newline]
  | c :: rest => by
    rw [List.cons_append, lines_of, split_newline, lines_of_append_newline rest]

/-- A non-empty pattern that does not end in `\n` has its pieces as lines. -/
theorem lines_of_no_final_newline :
    ∀ (pattern : List Nat), pattern ≠ [] → pattern.getLast? ≠ some 10 →
      lines_of pattern = split_newline pattern
  | [], h, _ => absurd rfl h
  | [c], _, hlast => by
    have hc : c ≠ 10 := by simpa using hlast
    simp [lines_of, split_newline, hc]
  | c :: d :: rest, _, hlast => by
    rw [List.getLast?_cons_cons] at hlast
    rw [lines_of, split_newline, lines_of_no_final_newline (d :: rest) (by simp) hlast]

theorem split_newline_no_newline :
    ∀ (pattern : List Nat), ∀ piece ∈ split_newline pattern, 10 ∉ piece
  | [], piece, h => by
    simp only [split_newline, List.mem_singleton] at h
    subst h; simp
  | c :: rest, piece, h => by
    unfold split_newline at h
    split at h
    · rcases List.mem_cons.mp h with rfl | h
      · simp
      · exact split_newline_no_newline rest piece h
    · rename_i hc
      split at h
      · simp only [List.mem_singleton] at h
        subst h
        simpa using fun h10 => hc h10.symm
      · rename_i p ps heq
        rcases List.mem_cons.mp h with rfl | h
        · have hp := split_newline_no_newline rest p (by rw [heq]; simp)
          simp only [List.mem_cons, not_or]
          exact ⟨fun h10 => hc h10.symm, hp⟩
        · exact split_newline_no_newline rest piece (by rw [heq]; simp [h])

theorem split_newline_join :
    ∀ (pattern : List Nat), List.intercalate [10] (split_newline pattern) = pattern
  | [] => by simp [split_newline, List.intercalate]
  | c :: rest => by
    have ih := split_newline_join rest
    unfold split_newline
    split
    · rename_i hc
      subst hc
      cases hs : split_newline rest with
      | nil => exact absurd hs (split_newline_ne_nil rest)
      | cons p ps =>
        rw [hs] at ih
        simp only [List.intercalate, List.intersperse, List.flatten] at ih ⊢
        cases ps with
        | nil => simpa [List.intersperse, List.flatten] using ih
        | cons q qs => simpa [List.intersperse, List.flatten] using ih
    · split
      · rename_i heq
        exact absurd heq (split_newline_ne_nil rest)
      · rename_i p ps heq
        rw [heq] at ih
        cases ps with
        | nil => simpa [List.intercalate, List.intersperse, List.flatten] using ih
        | cons q qs => simpa [List.intercalate, List.intersperse, List.flatten] using ih

theorem split_newline_append_newline :
    ∀ (pattern : List Nat), split_newline (pattern ++ [10]) = split_newline pattern ++ [[]]
  | [] => by simp [split_newline]
  | c :: rest => by
    rw [List.cons_append, split_newline, split_newline_append_newline rest, split_newline]
    by_cases hc : c = 10
    · simp [hc]
    · simp only [hc, if_false]
      cases hs : split_newline rest with
      | nil => exact absurd hs (split_newline_ne_nil rest)
      | cons p ps => simp

/-- The literal list of the constructor is the list of lines of the pattern, and
the single empty literal for the empty pattern. -/
theorem FixedString.ctor_patterns (pattern : List Nat) (case_folding : CaseSensitivity) :
    (FixedString.ctor pattern case_folding).patterns
      = if pattern = [] then [[]] else lines_of pattern := by
  unfold FixedString.ctor
  cases pattern with
  | nil => rfl
  | cons c t =>
    simp only [List.isEmpty_cons, Bool.false_eq_true, if_false, reduceCtorEq]
    rw [getline_loop_lines _ _ _ (Nat.lt_succ_self _)]
    simp

/-- C13 (amended). FixedString construction splits into lines: for every pattern
text the literal list equals the pattern, without its final `\n` if it ends in
one, split at each `\n` (so the empty piece after a final `\n` is not a literal);
the empty pattern gives the single empty literal.  The list is never empty, no
literal contains `\n`, and joining the literals with `\n` gives back the pattern
without that final `\n`.  For a pattern that does not end in `\n` this is the
pattern split at every `\n`. -/
theorem fixedstring_ctor_lines (pattern : List Nat) (case_folding : CaseSensitivity) :
    (FixedString.ctor pattern case_folding).patterns
      = split_newline (strip_final_newline pattern) ∧
    (FixedString.ctor pattern case_folding).patterns ≠ [] ∧
    (∀ lit ∈ (FixedString.ctor pattern case_folding).patterns, 10 ∉ lit) ∧
    List.intercalate [10] (FixedString.ctor pattern case_folding).patterns
      = strip_final_newline pattern ∧
    (pattern.getLast? ≠ some 10 →
      (FixedString.ctor pattern case_folding).patterns = split_newline pattern ∧
      List.intercalate [10] (FixedString.ctor pattern case_folding).patterns = pattern) ∧
    (pattern.getLast? = some 10 →
      (FixedString.ctor pattern case_folding).patterns = (split_newline pattern).dropLast) := by
  have hmain : (FixedString.ctor pattern case_folding).patterns
      = split_newline (strip_final_newline pattern) := by
    rw [FixedString.ctor_patterns]
    unfold strip_final_newline
    by_cases hnil : pattern = []
    · subst hnil; simp [split_newline]
    · rw [if_neg hnil]
      by_cases hlast : pattern.getLast? = some 10
      · rw [if_pos hlast]
        have hp : pattern = pattern.dropLast ++ [10] := by
          have := List.dropLast_append_getLast? 10 (by simpa using hlast)
          exact this.symm
        conv_lhs => rw [hp]
        exact lines_of_append_newline _
      · rw [if_neg hlast]
        exact lines_of_no_final_newline pattern hnil hlast
  refine ⟨hmain, ?_, ?_, ?_, ?_, ?_⟩
  · rw [hmain]; exact split_newline_ne_nil _
  · rw [hmain]; exact split_newline_no_newline _
  · rw [hmain]; exact split_newline_join _
  · intro hlast
    have hs : strip_final_newline pattern = pattern := by
      unfold strip_final_newline; rw [if_neg hlast]
    rw [hmain, hs]
    exact ⟨rfl, split_newline_join _⟩
  · intro hlast
    have hp : pattern = pattern.dropLast ++ [10] := by
      have := List.dropLast_append_getLast? 10 (by simpa using hlast)
      exact this.symm
    have hs : strip_final_newline pattern = pattern.dropLast := by
      unfold strip_final_newline; rw [if_pos hlast]
    rw [hmain, hs]
    conv_rhs => rw [hp, split_newline_append_newline]
    simp

/-- C13 as stated fails for a pattern that ends in `\n`: `a\n` split at its
newline has the pieces `a` and the empty piece, but the constructor installs the
single literal `a`, and joining gives `a`, not `a\n`. -/
theorem fixedstring_ctor_lines_counterexample :
    (FixedString.ctor (ascii "a\n") CaseSensitivity.SENSITIVE).patterns = [ascii "a"] ∧
    split_newline (ascii "a\n") = [ascii "a", []] ∧
    List.intercalate [10] (FixedString.ctor (ascii "a\n") CaseSensitivity.SENSITIVE).patterns
      ≠ ascii "a\n" := by
  decide

/-- C13 at a concrete input: the pattern `ab\n\ncd\n` has the literals `ab`, the
empty literal and `cd`. -/
theorem fixedstring_ctor_lines_witness :
    (FixedString.ctor (ascii "ab\n\ncd\n") CaseSensitivity.SMART).patterns
      = (split_newline (ascii "ab\n\ncd\n")).dropLast :=
  (fixedstring_ctor_lines (ascii "ab\n\ncd\n") CaseSensitivity.SMART).2.2.2.2.2 (by decide)

/-! ## Work queue: the dangling `rear` -/

/-- C16. Dangling rear is benign: the invariant "the chain from `front` ends in
`NULL` and, if `front` is non-null, `rear` is its last node (whose link is
`NULL`)" holds for a freshly created queue and is preserved by every `enqueue`
(allocation failed or fresh) and every `dequeue`, none of which touches a dead
pointer.  Dequeuing the last element leaves `front` `NULL` and `rear` pointing at
the freed node; with `front` `NULL` a successful `enqueue` does not depend on
`rear`; and after the queue has been emptied by `dequeue`, `enqueue(p)` followed
by `dequeue` delivers `p` and leaves the queue empty, even when `malloc` hands
out the freed block again. -/
theorem dangling_rear_benign :
    (∀ (heap0 : Heap) (malloc_ok : Bool) (ret : Int) (q : Queue),
      Queue_create malloc_ok ret = some q → Represents { heap := heap0, queue := q } []) ∧
    (∀ (s : State) (l : List (Nat × String)), Represents s l → s.queue.front ≠ none →
      ∃ r node, s.queue.rear = some r ∧ s.heap r = some node ∧ node.next = none ∧
        (l.map Prod.fst).getLast? = some r) ∧
    (∀ (s : State) (l : List (Nat × String)) (malloc : Option Nat) (path : String),
      Represents s l → (∀ a, malloc = some a → s.heap a = none) →
      ∃ r s1 l1, enqueue malloc s path = some (r, s1) ∧ Represents s1 l1) ∧
    (∀ (s : State) (l : List (Nat × String)) (pv : String), Represents s l →
      ∃ r pv1 s1 l1, dequeue s pv = some (r, pv1, s1) ∧ Represents s1 l1) ∧
    (∀ (s : State) (a : Nat) (x pv : String), Represents s [(a, x)] →
      ∃ s1, dequeue s pv = some (1, x, s1) ∧ s1.queue.front = none ∧
        s1.queue.rear = some a ∧ s1.heap a = none) ∧
    (∀ (s : State) (a : Nat) (path : String) (rear : Option Nat), s.queue.front = none →
      enqueue (some a) { s with queue := { s.queue with rear := rear } } path
        = enqueue (some a) s path ∧
      ∃ s1, enqueue (some a) s path = some (1, s1)) ∧
    (∀ (s : State) (a b : Nat) (x pv path : String) (s1 : State), Represents s [(a, x)] →
      dequeue s pv = some (1, x, s1) → s1.heap b = none →
      ∃ s2 s3, enqueue (some b) s1 path = some (1, s2) ∧
        dequeue s2 x = some (1, path, s3) ∧ s3.queue.front = none ∧ Represents s3 []) := by
  refine ⟨fun heap0 mo ret q hq => Queue_create_represents mo ret q heap0 hq, ?_, ?_, ?_, ?_,
    ?_, ?_⟩
  · intro s l hrep hfront
    rcases List.eq_nil_or_concat l with hl | ⟨l0, ⟨r, y⟩, hl⟩
    · subst hl
      exact absurd hrep.1 hfront
    · have hlast : l.getLast? = some (r, y) := by rw [hl]; simp
      refine ⟨r, _, hrep.2.2 r y hlast, Chain.last_cell l _ hrep.1 r y hlast, rfl, ?_⟩
      rw [hl]; simp
  · intro s l malloc path hrep hfresh
    cases malloc with
    | none => exact ⟨0, s, l, enqueue_alloc_failed s path, hrep⟩
    | some a =>
      obtain ⟨s1, he, hrep1, _⟩ := enqueue_represents s l a path hrep (hfresh a rfl)
      exact ⟨1, s1, _, he, hrep1⟩
  · intro s l pv hrep
    cases l with
    | nil => exact ⟨0, pv, s, [], dequeue_represents_nil s pv hrep, hrep⟩
    | cons n rest =>
      obtain ⟨a, x⟩ := n
      obtain ⟨s1, hd, hrep1, _⟩ := dequeue_represents_cons s a x rest pv hrep
      exact ⟨1, x, s1, rest, hd, hrep1⟩
  · intro s a x pv hrep
    obtain ⟨s1, hd, hrep1, hlive⟩ := dequeue_represents_cons s a x [] pv hrep
    refine ⟨s1, hd, hrep1.1, ?_, (hlive a).mpr (Or.inr rfl)⟩
    have hrear := hrep.2.2 a x (by simp)
    obtain ⟨hfront, nx, hcell, _⟩ := hrep.1
    simp only [dequeue, hfront, hcell, Option.some.injEq, Prod.mk.injEq, true_and] at hd
    rw [← hd]
    exact hrear
  · intro s a path rear hfront
    constructor
    · simp [enqueue, Queue_node_create, hfront]
    · exact ⟨{ heap := s.heap.store a { path := path, next := none },
               queue := { front := some a, rear := some a } },
        by simp [enqueue, Queue_node_create, hfront]⟩
  · intro s a b x pv path s1 hrep hd hfresh
    obtain ⟨s1', hd', hrep1, _⟩ := dequeue_represents_cons s a x [] pv hrep
    have hs : s1' = s1 := by
      rw [hd'] at hd
      simpa using hd
    subst hs
    obtain ⟨s2, he, hrep2, _⟩ := enqueue_represents s1' [] b path hrep1 hfresh
    obtain ⟨s3, hd3, hrep3, _⟩ := dequeue_represents_cons s2 b path [] x hrep2
    exact ⟨s2, s3, he, hd3, hrep3.1, hrep3⟩

/-- C16 at a concrete input: a queue whose only node sits at address 5; after it
is dequeued, block 5 is handed out again for the next `enqueue`. -/
theorem dangling_rear_benign_witness :
    ∃ s2 s3,
      enqueue (some 5)
          { heap := Heap.release (Heap.store (fun _ => none) 5 { path := "a", next := none }) 5,
            queue := { front := none, rear := some 5 } } "b" = some (1, s2) ∧
      dequeue s2 "a" = some (1, "b", s3) ∧ s3.queue.front = none ∧ Represents s3 [] :=
  dangling_rear_benign.2.2.2.2.2.2
    { heap := Heap.store (fun _ => none) 5 { path := "a", next := none },
      queue := { front := some 5, rear := some 5 } } 5 5 "a" "" "b"
    { heap := Heap.release (Heap.store (fun _ => none) 5 { path := "a", next := none }) 5,
      queue := { front := none, rear := some 5 } }
    ⟨⟨rfl, none, rfl, rfl⟩, by simp, by simp⟩ rfl (by simp [Heap.release])

/-! ## No-match leaves the record alone -/

/-- Every matcher of the program leaves the record alone when it reports no
match. -/
theorem Matcher.frame {regex_t : Type}
    (regexec : regex_t → List Nat → Nat → Int × Nat × Nat) (e : Regengine)
    (he : Matcher regexec e) (str : List Nat) (offset : Nat) (m : Match)
    (h : (e.exec str offset m).1 = false) : (e.exec str offset m).2 = m := by
  cases he with
  | fixed fs => exact FixedString.exec_fixed_frame fs str offset m h
  | posix re => exact PosixRegex.exec_posix_frame regexec re str offset m h
  | list pl _ => exact PatternList.exec_loop_frame str offset m pl.patterns m h

/-- C19. No-match leaves the caller's match untouched: when `exec` of a
`FixedString` or of a `PatternList` (whatever its members) returns false, the
record `m` is the same as before the call; the empty `PatternList` reports no
match on every input; and `PatternList::exec` returns false if and only if every
member's `exec` returns false, for members that leave the record untouched when
they report no match, hence for every list of `FixedString`, `PosixRegex` and
`PatternList` members. -/
theorem no_match_leaves_match_untouched :
    (∀ (fs : FixedString) (str : List Nat) (offset : Nat) (m : Match),
      (fs.exec str offset m).1 = false →
      (fs.exec str offset m).2.start = m.start ∧ (fs.exec str offset m).2.end_ = m.end_) ∧
    (∀ (pl : PatternList) (str : List Nat) (offset : Nat) (m : Match),
      (pl.exec str offset m).1 = false →
      (pl.exec str offset m).2.start = m.start ∧ (pl.exec str offset m).2.end_ = m.end_) ∧
    (∀ (str : List Nat) (offset : Nat) (m : Match),
      PatternList.exec { patterns := [] } str offset m = (false, m)) ∧
    (∀ (pl : PatternList) (str : List Nat) (offset : Nat) (m : Match),
      (∀ r ∈ pl.patterns, (r.exec str offset m).1 = false → (r.exec str offset m).2 = m) →
      ((pl.exec str offset m).1 = false ↔
        ∀ r ∈ pl.patterns, (r.exec str offset m).1 = false)) ∧
    (∀ (regex_t : Type) (regexec : regex_t → List Nat → Nat → Int × Nat × Nat)
      (pl : PatternList) (str : List Nat) (offset : Nat) (m : Match),
      (∀ r ∈ pl.patterns, Matcher regexec r) →
      ((pl.exec str offset m).1 = false ↔
        ∀ r ∈ pl.patterns, (r.exec str offset m).1 = false)) := by
  have hiff : ∀ (pl : PatternList) (str : List Nat) (offset : Nat) (m : Match),
      (∀ r ∈ pl.patterns, (r.exec str offset m).1 = false → (r.exec str offset m).2 = m) →
      ((pl.exec str offset m).1 = false ↔
        ∀ r ∈ pl.patterns, (r.exec str offset m).1 = false) := by
    intro pl str offset m hframe
    unfold PatternList.exec
    simp only
    rw [PatternList.exec_loop_find str offset m pl.patterns hframe]
    cases hfind : pl.patterns.find? (fun r => (r.exec str offset m).1) with
    | none =>
      simp only [true_iff]
      intro r hr
      have := List.find?_eq_none.mp hfind r hr
      simpa using this
    | some r =>
      simp only [Bool.true_eq_false, false_iff, not_forall]
      have hmem := List.mem_of_find?_eq_some hfind
      have htrue := List.find?_some hfind
      exact ⟨r, hmem, by simpa using htrue⟩
  refine ⟨?_, ?_, fun str offset m => rfl, hiff,
    fun regex_t regexec pl str offset m hall =>
      hiff pl str offset m (fun r hr => Matcher.frame regexec r (hall r hr) str offset m)⟩
  · intro fs str offset m h
    rw [FixedString.exec_fixed_frame fs str offset m h]
    exact ⟨rfl, rfl⟩
  · intro pl str offset m h
    have := PatternList.exec_loop_frame str offset m pl.patterns m h
    unfold PatternList.exec
    rw [this]
    exact ⟨rfl, rfl⟩

/-- C19 at a concrete input: the list of the literals `q` and `zzz` on the text
`abc` reports no match, as both members do. -/
theorem no_match_leaves_match_untouched_witness :
    (PatternList.exec { patterns :=
        [(FixedString.ctor (ascii "q") CaseSensitivity.SMART).toRegengine,
         (FixedString.ctor (ascii "zzz") CaseSensitivity.SMART).toRegengine] }
        (ascii "abc") 0 (Match.mk 3 9)).1 = false ↔
      ∀ r ∈ [(FixedString.ctor (ascii "q") CaseSensitivity.SMART).toRegengine,
         (FixedString.ctor (ascii "zzz") CaseSensitivity.SMART).toRegengine],
        (r.exec (ascii "abc") 0 (Match.mk 3 9)).1 = false :=
  no_match_leaves_match_untouched.2.2.2.1
    { patterns := [(FixedString.ctor (ascii "q") CaseSensitivity.SMART).toRegengine,
         (FixedString.ctor (ascii "zzz") CaseSensitivity.SMART).toRegengine] }
    (ascii "abc") 0 (Match.mk 3 9) (by decide)

/-! ## FixedString: resuming a search -/

/-- Searching a haystack from position `d` on gives the same hit, shifted, when
no hit lies before `d`. -/
theorem find_first_drop (eq : Nat → Nat → Bool) (needle hay : List Nat) (d : Nat)
    (hmin : ∀ i, find_first eq needle hay = some i → d ≤ i) :
    find_first eq needle (hay.drop d) = (find_first eq needle hay).map (fun i => i - d) := by
  cases h : find_first eq needle hay with
  | none =>
    simp only [Option.map_none']
    cases h' : find_first eq needle (hay.drop d) with
    | none => rfl
    | some k =>
      have hsw := (find_first_some eq needle _ k h').2.1
      rw [List.drop_drop, find_first_none eq needle hay h] at hsw
      cases hsw
  | some i =>
    have hdi := hmin i h
    obtain ⟨hle, hsw, hbefore⟩ := find_first_some eq needle hay i h
    simp only [Option.map_some']
    have hsw' : starts_with eq ((hay.drop d).drop (i - d)) needle = true := by
      rw [List.drop_drop]
      have : d + (i - d) = i := by omega
      rw [this]; exact hsw
    obtain ⟨k, hk, hki⟩ := find_first_le eq needle (hay.drop d) (i - d) hsw'
    rw [hk]
    congr 1
    by_contra hne
    have hlt : d + k < i := by omega
    have hk' := (find_first_some eq needle _ k hk).2.1
    rw [List.drop_drop, hbefore (d + k) hlt] at hk'
    cases hk'

/-- The C string behind `&str[o + d]` is the C string behind `&str[o]` without
its first `d` bytes, as long as these exist. -/
theorem cstring_c_str_drop_add (str : List Nat) (o d : Nat) (ho : o + d ≤ str.length)
    (hd : d ≤ (cstring ((c_str str).drop o)).length) :
    cstring ((c_str str).drop (o + d)) = (cstring ((c_str str).drop o)).drop d := by
  rw [cstring_c_str_drop str o (by omega)] at hd ⊢
  rw [cstring_c_str_drop str (o + d) ho, drop_takeWhile_length _ d hd, List.drop_drop]

/-- The search of a literal from a later offset inside the same C string. -/
theorem FixedString.search_shift (fs : FixedString) (str lit : List Nat) (o d : Nat)
    (ho : o + d ≤ str.length) (hd : d ≤ (cstring ((c_str str).drop o)).length)
    (hmin : ∀ r, fs.search ((c_str str).drop o) lit = some r → d ≤ r) :
    fs.search ((c_str str).drop (o + d)) lit
      = (fs.search ((c_str str).drop o) lit).map (fun r => r - d) := by
  rw [FixedString.search_eq] at hmin ⊢
  rw [FixedString.search_eq, cstring_c_str_drop_add str o d ho hd]
  exact find_first_drop _ _ _ d hmin

/-- The loop of `FixedString::exec` under a shift of all search results. -/
theorem FixedString.exec_fold_shift (fs : FixedString) (sb sb' : List Nat) (d : Nat) :
    ∀ (ps : List (List Nat)) (acc : Option Nat × List Nat),
      (∀ lit ∈ ps, fs.search sb' lit = (fs.search sb lit).map (fun r => r - d)) →
      (∀ lit ∈ ps, ∀ r, fs.search sb lit = some r → d ≤ r) →
      (∀ r, acc.1 = some r → d ≤ r) →
      ps.foldl (fs.exec_step sb') (acc.1.map (fun r => r - d), acc.2)
        = ((ps.foldl (fs.exec_step sb) acc).1.map (fun r => r - d),
           (ps.foldl (fs.exec_step sb) acc).2)
  | [], _, _, _, _ => rfl
  | p :: ps, acc, hshift, hge, hacc => by
    have hp := hshift p (by simp)
    have hstep : fs.exec_step sb' (acc.1.map (fun r => r - d), acc.2) p
        = ((fs.exec_step sb acc p).1.map (fun r => r - d), (fs.exec_step sb acc p).2) := by
      unfold FixedString.exec_step
      rw [hp]
      cases hs : fs.search sb p with
      | none => rfl
      | some x =>
        have hx := hge p (by simp) x hs
        obtain ⟨a1, a2⟩ := acc
        cases a1 with
        | none => rfl
        | some mr =>
          have hmr := hacc mr rfl
          simp only [Option.map_some']
          by_cases hlt : x < mr
          · have hlt' : x - d < mr - d := by omega
            simp [hlt, hlt']
          · have hlt' : ¬ x - d < mr - d := by omega
            simp [hlt, hlt']
    have hacc' : ∀ r, (fs.exec_step sb acc p).1 = some r → d ≤ r := by
      intro r hr
      unfold FixedString.exec_step at hr
      cases hs : fs.search sb p with
      | none => rw [hs] at hr; exact hacc r hr
      | some x =>
        rw [hs] at hr
        have hx := hge p (by simp) x hs
        obtain ⟨a1, a2⟩ := acc
        cases a1 with
        | none => simp at hr; omega
        | some mr =>
          have hmr := hacc mr rfl
          simp only at hr
          split at hr
          · simp at hr; omega
          · simp at hr; omega
    simp only [List.foldl_cons]
    rw [hstep]
    exact FixedString.exec_fold_shift fs sb sb' d ps (fs.exec_step sb acc p)
      (fun lit hl => hshift lit (List.mem_cons_of_mem _ hl))
      (fun lit hl => hge lit (List.mem_cons_of_mem _ hl)) hacc'

/-- C18 (amended). Resuming inside the gap before a match does not change the
answer: for every FixedString matcher, text and offsets `o ≤ o' ≤ length(text)`,
if `exec(text, o)` reports `[s, e)` and `o' ≤ s` then `exec(text, o')` reports
the same `[s, e)`; if `exec(text, o)` reports no match then `exec(text, o')`
reports no match provided `o'` is not behind the first zero byte of the text at
or after `o` (so for every `o'` when the text has no zero byte from `o` on); and
when both calls report a match the start reported from `o'` is not smaller. -/
theorem fixedstring_resume_in_gap (fs : FixedString) (str : List Nat) (o o' : Nat) (m : Match)
    (ho : o ≤ o') (ho' : o' ≤ str.length) :
    (∀ m1, fs.exec str o m = (true, m1) → o' ≤ m1.start → fs.exec str o' m = (true, m1)) ∧
    ((fs.exec str o m).1 = false → o' ≤ c_window_end str o →
      (fs.exec str o' m).1 = false) ∧
    ((fs.exec str o m).1 = false → 0 ∉ str.drop o → (fs.exec str o' m).1 = false) ∧
    (∀ m1 m2, fs.exec str o m = (true, m1) → fs.exec str o' m = (true, m2) →
      m1.start ≤ m2.start) := by
  obtain ⟨d, rfl⟩ := Nat.exists_eq_add_of_le ho
  have hwlen : (cstring ((c_str str).drop o)).length + o = c_window_end str o := by
    rw [cstring_c_str_drop str o (by omega)]
    unfold c_window_end
    omega
  have hgap : ∀ m1, fs.exec str o m = (true, m1) → o + d ≤ m1.start →
      fs.exec str (o + d) m = (true, m1) := by
    intro m1 hexec hle
    obtain ⟨r, pre, pat, post, hloop, hpats, hfound, hpre, hpost, rfl⟩ :=
      FixedString.exec_true fs str o m m1 hexec
    simp only at hle
    have hdr : d ≤ r := by omega
    have hall : ∀ lit ∈ fs.patterns, ∀ r', fs.search ((c_str str).drop o) lit = some r' →
        d ≤ r' := by
      intro lit hlit r' hr'
      rw [hpats] at hlit
      rcases List.mem_append.mp hlit with hq | hq
      · have := hpre lit hq r' hr'; omega
      · rcases List.mem_cons.mp hq with hq | hq
        · rw [hq, hfound] at hr'
          simp only [Option.some.injEq] at hr'
          omega
        · have := hpost lit hq r' hr'; omega
    have hrw : r ≤ (cstring ((c_str str).drop o)).length := by
      have := FixedString.search_some_le fs str pat o r (by omega) hfound
      omega
    have hshift : ∀ lit ∈ fs.patterns, fs.search ((c_str str).drop (o + d)) lit
        = (fs.search ((c_str str).drop o) lit).map (fun r => r - d) :=
      fun lit hlit => FixedString.search_shift fs str lit o d ho' (by omega) (hall lit hlit)
    have hfold := FixedString.exec_fold_shift fs ((c_str str).drop o) ((c_str str).drop (o + d))
      d fs.patterns (none, []) hshift hall (by simp)
    unfold FixedString.exec
    simp only
    unfold FixedString.exec_loop at hloop ⊢
    simp only [Option.map_none'] at hfold
    rw [hfold, hloop]
    simp only [Option.map_some', Prod.mk.injEq, true_and]
    congr 1 <;> omega
  have hnone : (fs.exec str o m).1 = false → o + d ≤ c_window_end str o →
      (fs.exec str (o + d) m).1 = false := by
    intro hfalse hwin
    rw [FixedString.exec_false_iff] at hfalse ⊢
    intro lit hlit
    rw [FixedString.search_shift fs str lit o d ho' (by omega)
      (fun r hr => by rw [hfalse lit hlit] at hr; cases hr), hfalse lit hlit]
    rfl
  refine ⟨hgap, hnone, ?_, ?_⟩
  · intro hfalse hzero
    apply hnone hfalse
    rw [c_window_end_of_no_zero str o (by omega) hzero]
    exact ho'
  · intro m1 m2 h1 h2
    by_cases hle : o + d ≤ m1.start
    · rw [hgap m1 h1 hle] at h2
      simp only [Prod.mk.injEq, true_and] at h2
      rw [h2]
    · obtain ⟨r, _, _, _, _, _, _, _, _, rfl⟩ := FixedString.exec_true fs str (o + d) m m2 h2
      simp only
      omega

/-- C18 at a concrete input: the literal `Foo` under SMART on `foo bar Foo`,
resumed at offset 5 inside the gap before the match at 8. -/
theorem fixedstring_resume_in_gap_witness :
    (FixedString.ctor (ascii "Foo") CaseSensitivity.SMART).exec (ascii "foo bar Foo") 5
        (Match.mk 0 0) = (true, Match.mk 8 11) :=
  (fixedstring_resume_in_gap (FixedString.ctor (ascii "Foo") CaseSensitivity.SMART)
    (ascii "foo bar Foo") 0 5 (Match.mk 0 0) (by decide) (by decide)).1
    (Match.mk 8 11) (by decide) (by decide)

/-- C18 as stated fails on a text with a zero byte: on the text `\0a` the
literal `a` is not found from offset 0, where the C string is empty, but it is
found from offset 1. -/
theorem fixedstring_resume_in_gap_counterexample :
    (0 : Nat) ≤ 1 ∧ 1 ≤ [0, 97].length ∧
    ((FixedString.ctor [97] CaseSensitivity.SENSITIVE).exec [0, 97] 0 (Match.mk 0 0)).1 = false ∧
    (FixedString.ctor [97] CaseSensitivity.SENSITIVE).exec [0, 97] 1 (Match.mk 0 0)
      = (true, Match.mk 1 2) := by
  decide

/-! ## FixedString: tie-break -/

/-- A matcher with an empty literal always matches at the offset itself. -/
theorem FixedString.exec_empty_literal (fs : FixedString) (hmem : [] ∈ fs.patterns)
    (str : List Nat) (offset : Nat) (m : Match) :
    ∃ m1, fs.exec str offset m = (true, m1) ∧ m1.start = offset := by
  have hs : fs.search ((c_str str).drop offset) [] = some 0 := by
    rw [FixedString.search_eq, cstring_c_str]
    exact find_first_nil _ _
  cases hex : fs.exec str offset m with
  | mk ok m1 =>
    cases ok with
    | false =>
      have hfalse : (fs.exec str offset m).1 = false := by rw [hex]
      rw [FixedString.exec_false_iff] at hfalse
      rw [hfalse [] hmem] at hs
      cases hs
    | true =>
      refine ⟨m1, rfl, ?_⟩
      obtain ⟨r, pre, pat, post, _, hpats, hfound, hpre, hpost, rfl⟩ :=
        FixedString.exec_true fs str offset m m1 hex
      have hr : r = 0 := by
        rw [hpats] at hmem
        rcases List.mem_append.mp hmem with hq | hq
        · have := hpre [] hq 0 hs; omega
        · rcases List.mem_cons.mp hq with hq | hq
          · rw [← hq, hs] at hfound
            simp only [Option.some.injEq] at hfound
            omega
          · have := hpost [] hq 0 hs; omega
      simp [hr]

/-- C17 (amended). FixedString tie-break is pattern order: for a matcher whose
literals contain no zero byte, every text and `offset ≤ length(text)`, when
`exec` reports a match, no literal occurs between `offset` and the reported
start, and the reported end is the start plus the length of the earliest literal
in pattern order that occurs at the start.  The pattern `ab\nabc` on `abc`
returns `[0, 2)`, the pattern `abc\nab` returns `[0, 3)`, and a pattern with an
empty line such as `x\n\nabc` always matches at `start = offset`. -/
theorem fixedstring_tie_break :
    (∀ (fs : FixedString) (str : List Nat) (offset : Nat) (m m' : Match),
      offset ≤ str.length → (∀ lit ∈ fs.patterns, 0 ∉ lit) →
      fs.exec str offset m = (true, m') →
      (∃ pre lit post, fs.patterns = pre ++ lit :: post ∧
        occurs_at (fs.case_insensitive lit) lit str m'.start ∧
        (∀ q ∈ pre, ¬ occurs_at (fs.case_insensitive q) q str m'.start) ∧
        m'.end_ = m'.start + lit.length) ∧
      (∀ q ∈ fs.patterns, ∀ p, offset ≤ p → p < m'.start →
        ¬ occurs_at (fs.case_insensitive q) q str p)) ∧
    (∀ (cf : CaseSensitivity) (m : Match),
      (FixedString.ctor (ascii "ab\nabc") cf).exec (ascii "abc") 0 m
        = (true, { start := 0, end_ := 2 }) ∧
      (FixedString.ctor (ascii "abc\nab") cf).exec (ascii "abc") 0 m
        = (true, { start := 0, end_ := 3 })) ∧
    (∀ (fs : FixedString), [] ∈ fs.patterns → ∀ (str : List Nat) (offset : Nat) (m : Match),
      offset ≤ str.length → ∃ m1, fs.exec str offset m = (true, m1) ∧ m1.start = offset) ∧
    (∀ (cf : CaseSensitivity), [] ∈ (FixedString.ctor (ascii "x\n\nabc") cf).patterns) := by
  refine ⟨?_, ?_,
    fun fs hmem str offset m _ => FixedString.exec_empty_literal fs hmem str offset m,
    fun cf => by cases cf <;> decide⟩
  · intro fs str offset m m' hoff hnul hexec
    obtain ⟨r, pre, pat, post, _, hpats, hfound, hpre, hpost, rfl⟩ :=
      FixedString.exec_true fs str offset m m' hexec
    have hmem : pat ∈ fs.patterns := by rw [hpats]; simp
    have hwin := FixedString.search_some_le fs str pat offset r hoff hfound
    have hbound : ∀ q ∈ fs.patterns, ∀ r', fs.search ((c_str str).drop offset) q = some r' →
        r ≤ r' := by
      intro q hq r' hr'
      rw [hpats] at hq
      rcases List.mem_append.mp hq with hq | hq
      · exact le_of_lt (hpre q hq r' hr')
      · rcases List.mem_cons.mp hq with hq | hq
        · rw [hq, hfound] at hr'
          simp only [Option.some.injEq] at hr'
          omega
        · exact hpost q hq r' hr'
    refine ⟨⟨pre, pat, post, hpats,
      FixedString.search_some_occurs fs str pat offset r hoff (hnul pat hmem) hfound, ?_, rfl⟩,
      ?_⟩
    · intro q hq hocc
      have hqmem : q ∈ fs.patterns := by rw [hpats]; simp [hq]
      obtain ⟨r', hr', hle⟩ := FixedString.occurs_search_le fs str q offset (offset + r) hoff
        (hnul q hqmem) (by omega) hwin hocc
      have := hpre q hq r' hr'
      omega
    · intro q hq p hp hlt hocc
      simp only at hlt
      obtain ⟨r', hr', hle⟩ := FixedString.occurs_search_le fs str q offset p hoff
        (hnul q hq) hp (by omega) hocc
      have := hbound q hq r' hr'
      omega
  · intro cf m
    cases cf <;> exact ⟨rfl, rfl⟩

/-- C17 at a concrete input: the literals `abc`, `ab` and `a` on `xabc` from
offset 0 all occur first at position 1; the first of them, `abc`, gives the end. -/
theorem fixedstring_tie_break_witness :
    (∃ pre lit post,
      (FixedString.ctor (ascii "abc\nab\na") CaseSensitivity.SENSITIVE).patterns
        = pre ++ lit :: post ∧
      occurs_at ((FixedString.ctor (ascii "abc\nab\na")
        CaseSensitivity.SENSITIVE).case_insensitive lit) lit (ascii "xabc") (Match.mk 1 4).start ∧
      (∀ q ∈ pre, ¬ occurs_at ((FixedString.ctor (ascii "abc\nab\na")
        CaseSensitivity.SENSITIVE).case_insensitive q) q (ascii "xabc") (Match.mk 1 4).start) ∧
      (Match.mk 1 4).end_ = (Match.mk 1 4).start + lit.length) ∧
    (∀ q ∈ (FixedString.ctor (ascii "abc\nab\na") CaseSensitivity.SENSITIVE).patterns,
      ∀ p, 0 ≤ p → p < (Match.mk 1 4).start →
      ¬ occurs_at ((FixedString.ctor (ascii "abc\nab\na")
        CaseSensitivity.SENSITIVE).case_insensitive q) q (ascii "xabc") p) :=
  fixedstring_tie_break.1 (FixedString.ctor (ascii "abc\nab\na") CaseSensitivity.SENSITIVE)
    (ascii "xabc") 0 (Match.mk 0 0) (Match.mk 1 4) (by decide) (by decide) (by decide)

/-- C17 as stated fails for a literal with a zero byte: of the literals `a\0b`,
`a` and `ab`, the last two have their first occurrence in the text `ab` at
position 0 and `a\0b` occurs nowhere, so the earliest literal occurring at the
start is `a`; but `a\0b` is searched as the C string `a` and found at 0 first,
and the reported end is `0 + 3`. -/
theorem fixedstring_tie_break_counterexample :
    (FixedString.ctor [97, 0, 98, 10, 97, 10, 97, 98] CaseSensitivity.SENSITIVE).patterns
      = [[97, 0, 98], [97], [97, 98]] ∧
    (FixedString.ctor [97, 0, 98, 10, 97, 10, 97, 98] CaseSensitivity.SENSITIVE).exec
      [97, 98] 0 (Match.mk 0 0) = (true, Match.mk 0 3) ∧
    occurs_at false [97] [97, 98] 0 ∧ occurs_at false [97, 98] [97, 98] 0 ∧
    (∀ p, ¬ occurs_at false [97, 0, 98] [97, 98] p) ∧
    (Match.mk 0 3).end_ ≠ (Match.mk 0 3).start + [97].length := by
  refine ⟨by decide, by decide, by decide, by decide, ?_, by decide⟩
  intro p hocc
  have := hocc.1
  simp at this

/-! ## Case policy -/

theorem find_first_zero (eq : Nat → Nat → Bool) (needle hay : List Nat)
    (h : starts_with eq hay needle = true) : find_first eq needle hay = some 0 := by
  cases hay <;> simp [find_first, h]

theorem not_nul_tolower (c : Nat) : not_nul (tolower c) = not_nul c := by
  have h := fold_case_zero true c
  simp only [fold_case, if_true] at h
  have h0 : tolower 0 = 0 := by decide
  rw [h0] at h
  by_cases hc : c = 0
  · subst hc; rw [h0]
  · have : tolower c ≠ 0 := fun ht => hc (h.mp ht)
    rw [not_nul_of_ne hc, not_nul_of_ne this]

/-- Lower-casing commutes with cutting at the first zero byte. -/
theorem takeWhile_map_tolower (l : List Nat) :
    (l.takeWhile not_nul).map tolower = (l.map tolower).takeWhile not_nul := by
  induction l with
  | nil => rfl
  | cons c t ih =>
    by_cases hc : c = 0
    · subst hc
      have h0 : tolower 0 = 0 := by decide
      simp [List.takeWhile, not_nul_zero, h0]
    · have h1 : not_nul (tolower c) = true := by rw [not_nul_tolower]; exact not_nul_of_ne hc
      simp only [List.map_cons]
      rw [List.takeWhile_cons_of_pos (not_nul_of_ne hc), List.takeWhile_cons_of_pos h1,
        List.map_cons, ih]

theorem not_newline_tolower (c : Nat) : not_newline (tolower c) = not_newline c := by
  by_cases hup : isupper c = true
  · have h1 : tolower c = c + 32 := by simp [tolower, hup]
    simp only [isupper, Bool.and_eq_true, decide_eq_true_eq] at hup
    rw [h1, not_newline_of_ne (by omega), not_newline_of_ne (by omega)]
  · have h1 : tolower c = c := by simp [tolower, hup]
    rw [h1]

/-- Lower-casing commutes with cutting at the first newline. -/
theorem takeWhile_newline_map_tolower (l : List Nat) :
    (l.takeWhile not_newline).map tolower = (l.map tolower).takeWhile not_newline := by
  induction l with
  | nil => rfl
  | cons c t ih =>
    by_cases hc : not_newline c = true
    · have h1 : not_newline (tolower c) = true := by rw [not_newline_tolower]; exact hc
      simp only [List.map_cons]
      rw [List.takeWhile_cons_of_pos hc, List.takeWhile_cons_of_pos h1, List.map_cons, ih]
    · have h1 : ¬ not_newline (tolower c) = true := by rw [not_newline_tolower]; exact hc
      simp only [List.map_cons]
      rw [List.takeWhile_cons_of_neg hc, List.takeWhile_cons_of_neg h1]
      rfl

/-- The C string of a text starts with the C string of its first line. -/
theorem takeWhile_not_nul_first_line :
    ∀ (l : List Nat),
      ∃ more, l.takeWhile not_nul = (l.takeWhile not_newline).takeWhile not_nul ++ more
  | [] => ⟨[], rfl⟩
  | c :: t => by
    by_cases h0 : not_nul c = true
    · by_cases h10 : not_newline c = true
      · obtain ⟨more, hmore⟩ := takeWhile_not_nul_first_line t
        refine ⟨more, ?_⟩
        rw [List.takeWhile_cons_of_pos h0, List.takeWhile_cons_of_pos h10,
          List.takeWhile_cons_of_pos h0, hmore]
        rfl
      · exact ⟨(c :: t).takeWhile not_nul, by
          rw [List.takeWhile_cons_of_neg h10]; rfl⟩
    · refine ⟨[], ?_⟩
      rw [List.takeWhile_cons_of_neg h0]
      by_cases h10 : not_newline c = true
      · rw [List.takeWhile_cons_of_pos h10, List.takeWhile_cons_of_neg h0]; rfl
      · rw [List.takeWhile_cons_of_neg h10]; rfl

/-- A non-empty input without newline is its own single line. -/
theorem lines_of_no_newline :
    ∀ (input : List Nat), input ≠ [] → 10 ∉ input → lines_of input = [input]
  | [], h, _ => absurd rfl h
  | [c], _, h10 => by
    have hc : c ≠ 10 := fun hc => h10 (by simp [hc])
    simp [lines_of, hc]
  | c :: d :: rest, _, h10 => by
    have hc : c ≠ 10 := fun hc => h10 (by simp [hc])
    have hrest : 10 ∉ d :: rest := fun hin => h10 (List.mem_cons_of_mem _ hin)
    rw [lines_of, if_neg hc, lines_of_no_newline (d :: rest) (by simp) hrest]

/-- Every byte of a line is a byte of the input. -/
theorem lines_of_subset :
    ∀ (input line : List Nat), line ∈ lines_of input → ∀ c ∈ line, c ∈ input
  | [], line, h, _, _ => by simp [lines_of] at h
  | c0 :: rest, line, h, c, hc => by
    rw [lines_of] at h
    by_cases h10 : c0 = 10
    · rw [if_pos h10] at h
      rcases List.mem_cons.mp h with rfl | h
      · simp at hc
      · exact List.mem_cons_of_mem _ (lines_of_subset rest line h c hc)
    · rw [if_neg h10] at h
      cases hl : lines_of rest with
      | nil =>
        rw [hl] at h
        simp only [List.mem_singleton] at h
        subst h
        simp only [List.mem_singleton] at hc
        subst hc
        simp
      | cons first others =>
        rw [hl] at h
        rcases List.mem_cons.mp h with rfl | h
        · rcases List.mem_cons.mp hc with rfl | hc
          · simp
          · exact List.mem_cons_of_mem _
              (lines_of_subset rest first (by rw [hl]; simp) c hc)
        · exact List.mem_cons_of_mem _
            (lines_of_subset rest line (by rw [hl]; simp [h]) c hc)

theorem FixedString.ctor_case_folding (pattern : List Nat) (case_folding : CaseSensitivity) :
    (FixedString.ctor pattern case_folding).case_folding = case_folding := by
  unfold FixedString.ctor
  split <;> rfl

/-- A pattern without newline is installed as the single literal. -/
theorem FixedString.ctor_single (pattern : List Nat) (case_folding : CaseSensitivity)
    (h10 : 10 ∉ pattern) : (FixedString.ctor pattern case_folding).patterns = [pattern] := by
  rw [FixedString.ctor_patterns]
  by_cases hnil : pattern = []
  · rw [if_pos hnil, hnil]
  · rw [if_neg hnil, lines_of_no_newline pattern hnil h10]

/-- The first literal is the first line of the pattern. -/
theorem FixedString.ctor_head (pattern : List Nat) (case_folding : CaseSensitivity) :
    ∃ tail, (FixedString.ctor pattern case_folding).patterns
      = pattern.takeWhile not_newline :: tail := by
  rw [FixedString.ctor_patterns]
  cases pattern with
  | nil => exact ⟨[], rfl⟩
  | cons c t =>
    rw [if_neg (by simp)]
    exact ⟨_, lines_of_getline (c :: t) _ _ rfl⟩

/-- A pattern without zero byte has literals without zero byte. -/
theorem FixedString.ctor_no_zero (pattern : List Nat) (case_folding : CaseSensitivity)
    (h0 : 0 ∉ pattern) : ∀ lit ∈ (FixedString.ctor pattern case_folding).patterns, 0 ∉ lit := by
  intro lit hlit hin
  rw [FixedString.ctor_patterns] at hlit
  by_cases hnil : pattern = []
  · rw [if_pos hnil] at hlit
    simp only [List.mem_singleton] at hlit
    subst hlit
    simp at hin
  · rw [if_neg hnil] at hlit
    exact h0 (lines_of_subset pattern lit hlit 0 hin)

/-- C15 (amended). Tri-state case policy resolution: a literal of a FixedString
is searched ignoring case (`strcasestr`) if and only if the policy is INSENSITIVE,
or the policy is SMART and the literal has no uppercase ASCII letter, and
byte for byte (`strstr`) otherwise.  Under SENSITIVE a pattern of a single line
and without zero byte never matches a text that differs from it only in case
(`foo` does not match `FOO`), and every match of a pattern without zero byte,
of one line or several, equals one of its lines byte for byte; under INSENSITIVE
every pattern matches, at the extent of its first line, a text that equals it up
to case (`Foo` matches `foo` at `[0, 3)`).  The constructor of `PosixRegex`
hands `regcomp` the flag `REG_ICASE` exactly under this condition, evaluated once
on the whole pattern with `regex_has_uppercase_literals`. -/
theorem case_policy_resolution :
    (∀ (fs : FixedString) (lit : List Nat),
      fs.case_insensitive lit = true ↔
        (fs.case_folding = CaseSensitivity.INSENSITIVE ∨
          (fs.case_folding = CaseSensitivity.SMART ∧ ∀ c ∈ lit, ¬ (65 ≤ c ∧ c ≤ 90)))) ∧
    (∀ (fs : FixedString) (str_begin lit : List Nat),
      fs.search str_begin lit
        = if fs.case_insensitive lit then strcasestr str_begin (c_str lit)
          else strstr str_begin (c_str lit)) ∧
    (∀ (pattern text : List Nat) (m : Match), 0 ∉ pattern → 10 ∉ pattern → text ≠ pattern →
      text.map tolower = pattern.map tolower →
      (FixedString.ctor pattern CaseSensitivity.SENSITIVE).exec text 0 m = (false, m)) ∧
    (∀ (pattern text : List Nat) (offset : Nat) (m m' : Match), 0 ∉ pattern →
      offset ≤ text.length →
      (FixedString.ctor pattern CaseSensitivity.SENSITIVE).exec text offset m = (true, m') →
      ∃ lit ∈ (FixedString.ctor pattern CaseSensitivity.SENSITIVE).patterns,
        m'.end_ = m'.start + lit.length ∧ (text.drop m'.start).take lit.length = lit) ∧
    (∀ (pattern text : List Nat) (m : Match), text.map tolower = pattern.map tolower →
      (FixedString.ctor pattern CaseSensitivity.INSENSITIVE).exec text 0 m
        = (true, { start := 0, end_ := (pattern.takeWhile not_newline).length })) ∧
    (∀ (pattern text : List Nat) (m : Match), 10 ∉ pattern →
      text.map tolower = pattern.map tolower →
      (FixedString.ctor pattern CaseSensitivity.INSENSITIVE).exec text 0 m
        = (true, { start := 0, end_ := pattern.length })) ∧
    (∀ m, (FixedString.ctor (ascii "foo") CaseSensitivity.SENSITIVE).exec (ascii "FOO") 0 m
      = (false, m)) ∧
    (∀ m, (FixedString.ctor (ascii "Foo") CaseSensitivity.INSENSITIVE).exec (ascii "foo") 0 m
      = (true, { start := 0, end_ := 3 })) ∧
    (∀ (pattern : List Nat) (cf : CaseSensitivity),
      (PosixRegex.regex_flags pattern cf &&& REG_ICASE = REG_ICASE ↔
        (cf = CaseSensitivity.INSENSITIVE ∨
          (cf = CaseSensitivity.SMART ∧ regex_has_uppercase_literals pattern = false))) ∧
      PosixRegex.regex_flags pattern cf &&& REG_EXTENDED = REG_EXTENDED) ∧
    (∀ (regex_t : Type) (regcomp : List Nat → Nat → Int × regex_t) (pattern : List Nat)
      (cf : CaseSensitivity),
      PosixRegex.ctor regcomp pattern cf
        = if (regcomp (if pattern = [] then ascii "()" ++ [0] else pattern ++ [0])
                (PosixRegex.regex_flags pattern cf)).1 = 0
          then some { regex := (regcomp (if pattern = [] then ascii "()" ++ [0]
                else pattern ++ [0]) (PosixRegex.regex_flags pattern cf)).2 }
          else none) := by
  have hsens : ∀ (pattern : List Nat) (lit : List Nat),
      (FixedString.ctor pattern CaseSensitivity.SENSITIVE).case_insensitive lit = false := by
    intro pattern lit
    simp [FixedString.case_insensitive, FixedString.ctor_case_folding]
  have hins : ∀ (pattern text : List Nat) (m : Match), text.map tolower = pattern.map tolower →
      (FixedString.ctor pattern CaseSensitivity.INSENSITIVE).exec text 0 m
        = (true, { start := 0, end_ := (pattern.takeWhile not_newline).length }) := by
    intro pattern text m hcase
    obtain ⟨tail, hpat⟩ := FixedString.ctor_head pattern CaseSensitivity.INSENSITIVE
    have hci : (FixedString.ctor pattern CaseSensitivity.INSENSITIVE).case_insensitive
        (pattern.takeWhile not_newline) = true := by
      simp [FixedString.case_insensitive, FixedString.ctor_case_folding]
    have hs : (FixedString.ctor pattern CaseSensitivity.INSENSITIVE).search
        ((c_str text).drop 0) (pattern.takeWhile not_newline) = some 0 := by
      rw [FixedString.search_eq, cstring_c_str, cstring_c_str_drop text 0 (Nat.zero_le _),
        List.drop_zero]
      apply find_first_zero
      rw [hci, starts_with_iff]
      have hf : fold_case true = tolower := by funext c; simp [fold_case]
      rw [hf]
      obtain ⟨more, hmore⟩ := takeWhile_not_nul_first_line text
      have heq : ((text.takeWhile not_newline).takeWhile not_nul).map tolower
          = ((pattern.takeWhile not_newline).takeWhile not_nul).map tolower := by
        rw [takeWhile_map_tolower, takeWhile_map_tolower, takeWhile_newline_map_tolower,
          takeWhile_newline_map_tolower, hcase]
      have hlen : ((text.takeWhile not_newline).takeWhile not_nul).length
          = ((pattern.takeWhile not_newline).takeWhile not_nul).length := by
        have := congrArg List.length heq
        simpa using this
      rw [hmore, List.take_left' hlen]
      exact heq
    have hmem : pattern.takeWhile not_newline
        ∈ (FixedString.ctor pattern CaseSensitivity.INSENSITIVE).patterns := by
      rw [hpat]; simp
    cases hex : (FixedString.ctor pattern CaseSensitivity.INSENSITIVE).exec text 0 m with
    | mk ok m1 =>
      cases ok with
      | false =>
        have hfalse : ((FixedString.ctor pattern CaseSensitivity.INSENSITIVE).exec
            text 0 m).1 = false := by rw [hex]
        rw [FixedString.exec_false_iff] at hfalse
        rw [hfalse _ hmem] at hs
        cases hs
      | true =>
        obtain ⟨r, pre, pat, post, _, hpats, hfound, hpre, _, rfl⟩ :=
          FixedString.exec_true _ text 0 m m1 hex
        rw [hpat] at hpats
        cases pre with
        | nil =>
          simp only [List.nil_append, List.cons.injEq] at hpats
          rw [← hpats.1, hs] at hfound
          simp only [Option.some.injEq] at hfound
          rw [← hfound, ← hpats.1, Nat.add_zero, Nat.zero_add]
        | cons q pre' =>
          simp only [List.cons_append, List.cons.injEq] at hpats
          have := hpre q (by simp) 0 (by rw [← hpats.1]; exact hs)
          omega
  refine ⟨?_, fun fs sb lit => rfl, ?_, ?_, hins, ?_, fun m => rfl, fun m => rfl, ?_, ?_⟩
  · intro fs lit
    simp only [FixedString.case_insensitive, FixedString.has_uppercase_literals]
    cases fs.case_folding <;> simp [isupper]
  · intro pattern text m hnul h10 hne hcase
    have hpat := FixedString.ctor_single pattern CaseSensitivity.SENSITIVE h10
    have hfalse : ((FixedString.ctor pattern CaseSensitivity.SENSITIVE).exec text 0 m).1
        = false := by
      rw [FixedString.exec_false_iff]
      intro q hq
      rw [hpat] at hq
      simp only [List.mem_singleton] at hq
      subst hq
      cases hs : (FixedString.ctor q CaseSensitivity.SENSITIVE).search
          ((c_str text).drop 0) q with
      | none => rfl
      | some r =>
        exfalso
        have hocc := FixedString.search_some_occurs _ text q 0 r (Nat.zero_le _) hnul hs
        rw [hsens] at hocc
        obtain ⟨hlen, hbytes⟩ := hocc
        have hl : text.length = q.length := by
          have := congrArg List.length hcase
          simpa using this
        have hr : r = 0 := by omega
        subst hr
        have hid : fold_case false = id := by funext c; simp [fold_case]
        rw [hid, List.map_id, List.map_id, Nat.zero_add, List.drop_zero, ← hl,
          List.take_length] at hbytes
        exact hne hbytes
    have hframe := FixedString.exec_fixed_frame _ text 0 m hfalse
    exact Prod.ext hfalse hframe
  · intro pattern text offset m m' hnul hoff hexec
    obtain ⟨_, hsel, hocc, hend⟩ := FixedString.exec_true_occurs _ text offset m m' hoff
      (FixedString.ctor_no_zero pattern CaseSensitivity.SENSITIVE hnul) hexec
    refine ⟨_, hsel, hend, ?_⟩
    rw [hsens] at hocc
    have hid : fold_case false = id := by funext c; simp [fold_case]
    have := hocc.2
    rw [hid, List.map_id, List.map_id] at this
    exact this
  · intro pattern text m h10 hcase
    have hall : pattern.takeWhile not_newline = pattern := by
      rw [List.takeWhile_eq_self_iff]
      intro c hc
      exact not_newline_of_ne (fun h => h10 (h ▸ hc))
    rw [hins pattern text m hcase, hall]
  · intro pattern cf
    unfold PosixRegex.regex_flags PosixRegex.case_insensitive PosixRegex.has_uppercase_literals
    cases cf <;> cases regex_has_uppercase_literals pattern <;> decide
  · intro regex_t regcomp pattern cf
    unfold PosixRegex.ctor c_str
    cases pattern with
    | nil =>
      simp only [List.isEmpty_nil, if_true]
      split <;> simp_all
    | cons c t =>
      simp only [List.isEmpty_cons, Bool.false_eq_true, if_false, reduceCtorEq]
      split <;> simp_all

/-- C15 at concrete inputs: under SENSITIVE the pattern `foo` does not match
`fOo` and the match of `a\na` in `A\na` is a byte-for-byte copy of one of its
lines, under INSENSITIVE `foo` matches `fOo`. -/
theorem case_policy_resolution_witness :
    (FixedString.ctor (ascii "foo") CaseSensitivity.SENSITIVE).exec (ascii "fOo") 0
        (Match.mk 0 0) = (false, Match.mk 0 0) ∧
    (∃ lit ∈ (FixedString.ctor (ascii "a\na") CaseSensitivity.SENSITIVE).patterns,
      (Match.mk 2 3).end_ = (Match.mk 2 3).start + lit.length ∧
        ((ascii "A\na").drop (Match.mk 2 3).start).take lit.length = lit) ∧
    (FixedString.ctor (ascii "foo") CaseSensitivity.INSENSITIVE).exec (ascii "fOo") 0
        (Match.mk 0 0) = (true, { start := 0, end_ := (ascii "foo").length }) :=
  ⟨case_policy_resolution.2.2.1 (ascii "foo") (ascii "fOo") (Match.mk 0 0) (by decide)
      (by decide) (by decide) (by decide),
   case_policy_resolution.2.2.2.1 (ascii "a\na") (ascii "A\na") 0 (Match.mk 0 0) (Match.mk 2 3)
      (by decide) (by decide) (by decide),
   case_policy_resolution.2.2.2.2.2.1 (ascii "foo") (ascii "fOo") (Match.mk 0 0) (by decide)
      (by decide)⟩

/-- C15 as stated fails in two ways.  Under SENSITIVE the lowercase pattern
`a\0b` is searched as the C string `a` and so matches the text `a\0B`, which
differs from it only in case.  And the lowercase pattern `a\na` has the two
literals `a`, so under SENSITIVE it matches the text `A\na`, which differs from
it only in case, at `[2, 3)`. -/
theorem case_policy_resolution_counterexample :
    ((∀ c ∈ [97, 0, 98], ¬ (65 ≤ c ∧ c ≤ 90)) ∧
      [97, 0, 66] ≠ [97, 0, 98] ∧
      [97, 0, 66].map tolower = [97, 0, 98].map tolower ∧
      (FixedString.ctor [97, 0, 98] CaseSensitivity.SENSITIVE).exec [97, 0, 66] 0 (Match.mk 0 0)
        = (true, Match.mk 0 3)) ∧
    ((∀ c ∈ ascii "a\na", ¬ (65 ≤ c ∧ c ≤ 90)) ∧
      ascii "A\na" ≠ ascii "a\na" ∧
      (ascii "A\na").map tolower = (ascii "a\na").map tolower ∧
      (FixedString.ctor (ascii "a\na") CaseSensitivity.SENSITIVE).exec (ascii "A\na") 0
        (Match.mk 0 0) = (true, Match.mk 2 3)) := by
  decide

/-! ## Work queue: concurrent callers -/

/-- The sequential `dequeue` is the emptiness test followed by the locked part. -/
theorem dequeue_eq_test_locked (s : State) (path : String) :
    dequeue s path = if dequeue_test s then dequeue_locked s else some (0, path, s) := by
  unfold dequeue dequeue_test dequeue_locked
  cases s.queue.front <;> rfl

/-- C11. The hand-off is broken by one interleaving: on a fresh queue a producer
enqueues one path, two consumers both make the emptiness test of `dequeue` and
see a non-null `front`, consumer 1 removes the node, and consumer 2, which
proceeds, finds `front` `NULL` under the mutex and dereferences it. -/
theorem dequeue_race_null_front :
    (∃ sys, concurrent_run
        { mem := { heap := fun _ => none, queue := { front := none, rear := none } },
          proceeding := [], delivered := [] }
        [Step.enqueue (some 5) "a.pdf", Step.test 1, Step.test 2, Step.remove 1] = some sys ∧
      sys.proceeding = [2] ∧ sys.mem.queue.front = none ∧
      sys.delivered = [(1, "a.pdf")] ∧ dequeue_locked sys.mem = none) ∧
    concurrent_run
        { mem := { heap := fun _ => none, queue := { front := none, rear := none } },
          proceeding := [], delivered := [] }
        [Step.enqueue (some 5) "a.pdf", Step.test 1, Step.test 2, Step.remove 1, Step.remove 2]
      = none := by
  constructor
  · exact ⟨_, rfl, rfl, rfl, rfl, rfl⟩
  · rfl

end Pdfgrep
